import Mathlib

/-!
Verification of the CapillaryAnnotator image-analysis pipeline.

The TypeScript sources are shallowly embedded: pixel buffers become
functions from flat indices to values, imperative scans become folds or
explicit recursion, and JavaScript number arithmetic is modelled by exact
rational arithmetic (`ℚ`).  Flat index `i` in a `width × height` buffer
has coordinates `x = i % width`, `y = i / width`.
-/

set_option maxRecDepth 100000

namespace CapAnn

/-- Rounding of JavaScript, with `Math.round x = ⌊x + 1/2⌋` (halves toward plus
infinity). -/
def jround (q : ℚ) : ℤ := ⌊q + 1/2⌋

/-! ## Detection configuration (loopDetection CONFIG object) -/

namespace CONFIG

def windowSize : ℕ := 15
def cConst : ℚ := 2
def minArea : ℚ := 100
def maxArea : ℚ := 2000
/-- Field minAspectRat io of CONFIG (capillaries are elongated). -/
def minAspect : ℚ := 3/2
def minSolidity : ℚ := 3/5
def columnWidth : ℚ := 50

end CONFIG

/-! ## Blob analysis (analyzeBlob, isValidLoop) -/

/-- Statistics of a labeled blob, as produced by analyzeBlob. -/
structure BlobStats where
  area : ℚ
  minX : ℚ
  maxX : ℚ
  minY : ℚ
  maxY : ℚ
  centerX : ℚ
  centerY : ℚ
deriving DecidableEq

/-- Accumulator for the analyzeBlob scan.  All accumulated quantities are
nonnegative integers in the source, so they are carried in `ℕ`. -/
structure BlobScan where
  area : ℕ
  minX : ℕ
  maxX : ℕ
  minY : ℕ
  maxY : ℕ
  sumX : ℕ
  sumY : ℕ
deriving DecidableEq

/-- Raster scan of analyzeBlob accumulating area, bounding box and
coordinate sums for one label. -/
def blobScan (labels : ℕ → ℕ) (label : ℕ) (width height : ℕ) : BlobScan :=
  (List.range (width * height)).foldl (fun st i =>
    if labels i = label then
      let x := i % width
      let y := i / width
      { area := st.area + 1
        minX := if x < st.minX then x else st.minX
        maxX := if x > st.maxX then x else st.maxX
        minY := if y < st.minY then y else st.minY
        maxY := if y > st.maxY then y else st.maxY
        sumX := st.sumX + x
        sumY := st.sumY + y }
    else st) ⟨0, width, 0, height, 0, 0, 0⟩

/-- Embedding of analyzeBlob: the raster scan, then the centroid division
guarded by area > 0. -/
def analyzeBlob (labels : ℕ → ℕ) (label : ℕ) (width height : ℕ) : BlobStats :=
  let s := blobScan labels label width height
  { area := s.area
    minX := s.minX, maxX := s.maxX
    minY := s.minY, maxY := s.maxY
    centerX := if s.area > 0 then (s.sumX : ℚ) / s.area else 0
    centerY := if s.area > 0 then (s.sumY : ℚ) / s.area else 0 }

/-- Embedding of isValidLoop: area gate, then bounding-box aspect gate,
then solidity gate. -/
def isValidLoop (blob : BlobStats) : Bool :=
  if blob.area < CONFIG.minArea ∨ blob.area > CONFIG.maxArea then false
  else
    let width := blob.maxX - blob.minX + 1
    let height := blob.maxY - blob.minY + 1
    let aspect := height / width
    if aspect < CONFIG.minAspect then false
    else
      let bboxArea := width * height
      let solidity := blob.area / bboxArea
      if solidity < CONFIG.minSolidity then false
      else true

/-! ## Adaptive thresholding (adaptiveThreshold) -/

/-- Running row sum of the integral-image construction: sum of
gray[y][0..x]. -/
def rowSum (gray : ℕ → ℕ) (width y : ℕ) : ℕ → ℕ
  | 0 => gray (y * width)
  | x + 1 => rowSum gray width y x + gray (y * width + (x + 1))

/-- Integral image recurrence of the source: integral[y][x] equals the
row sum up to x plus integral[y-1][x]. -/
def integralImg (gray : ℕ → ℕ) (width : ℕ) : ℕ → ℕ → ℕ
  | 0, x => rowSum gray width 0 x
  | y + 1, x => rowSum gray width (y + 1) x + integralImg gray width y x

/-- Embedding of getSum: clamp the query rectangle to the image, then the
four-corner integral-image lookup A - B - C + D (in ℤ, as in JS number
arithmetic). -/
def getSum (gray : ℕ → ℕ) (width height : ℕ) (x1 y1 x2 y2 : ℤ) : ℤ :=
  let x1 := max 0 x1
  let y1 := max 0 y1
  let x2 := min ((width : ℤ) - 1) x2
  let y2 := min ((height : ℤ) - 1) y2
  let A : ℤ := integralImg gray width y2.toNat x2.toNat
  let B : ℤ := if y1 > 0 then integralImg gray width (y1 - 1).toNat x2.toNat else 0
  let C : ℤ := if x1 > 0 then integralImg gray width y2.toNat (x1 - 1).toNat else 0
  let D : ℤ := if x1 > 0 ∧ y1 > 0 then integralImg gray width (y1 - 1).toNat (x1 - 1).toNat else 0
  A - B - C + D

/-- Embedding of adaptiveThreshold, parameterized by the window size and
the constant (the source fixes them to CONFIG.windowSize = 15 and
CONFIG.c = 2): mark a pixel foreground when it exceeds the clipped-window
local mean plus the constant. -/
def adaptiveThresholdWith (w : ℕ) (c : ℚ) (gray : ℕ → ℕ) (width height : ℕ) : ℕ → ℕ :=
  fun i =>
    if i < width * height then
      let x := i % width
      let y := i / width
      let off := w / 2
      let x1 : ℤ := (x : ℤ) - off
      let y1 : ℤ := (y : ℤ) - off
      let x2 : ℤ := (x : ℤ) + off
      let y2 : ℤ := (y : ℤ) + off
      let count : ℤ :=
        (min ((width : ℤ) - 1) x2 - max 0 x1 + 1) * (min ((height : ℤ) - 1) y2 - max 0 y1 + 1)
      let sum := getSum gray width height x1 y1 x2 y2
      let mean : ℚ := (sum : ℚ) / (count : ℚ)
      if (gray i : ℚ) > mean + c then 1 else 0
    else 0

/-- Instantiation of adaptiveThreshold at the configured window and
constant. -/
def adaptiveThreshold (gray : ℕ → ℕ) (width height : ℕ) : ℕ → ℕ :=
  adaptiveThresholdWith CONFIG.windowSize CONFIG.cConst gray width height

/-! ## Morphological opening (morphologyOpen) -/

/-- Erosion pass of morphologyOpen: an interior pixel survives when it and
its four cross neighbours are foreground. -/
def erodedMask (binary : ℕ → ℕ) (width height : ℕ) : ℕ → ℕ := fun idx =>
  let x := idx % width
  let y := idx / width
  if 1 ≤ x ∧ x < width - 1 ∧ 1 ≤ y ∧ y < height - 1 ∧
      binary idx ≠ 0 ∧ binary (idx - 1) ≠ 0 ∧ binary (idx + 1) ≠ 0 ∧
      binary (idx - width) ≠ 0 ∧ binary (idx + width) ≠ 0 then
    1
  else 0

/-- Embedding of morphologyOpen: erosion then dilation with the 3×3 cross
kernel, both passes writing interior pixels only. -/
def morphologyOpen (binary : ℕ → ℕ) (width height : ℕ) : ℕ → ℕ := fun idx =>
  let eroded := erodedMask binary width height
  let x := idx % width
  let y := idx / width
  if 1 ≤ x ∧ x < width - 1 ∧ 1 ≤ y ∧ y < height - 1 ∧
      (eroded idx ≠ 0 ∨ eroded (idx - 1) ≠ 0 ∨ eroded (idx + 1) ≠ 0 ∨
       eroded (idx - width) ≠ 0 ∨ eroded (idx + width) ≠ 0) then
    1
  else 0

/-- Mask used to witness that opening can keep a pixel: a plus-shaped blob
centred at (1,1) of a 4×4 image. -/
def crossMask : ℕ → ℕ := fun i => if i = 1 ∨ i = 4 ∨ i = 5 ∨ i = 6 ∨ i = 9 then 1 else 0

/-! ## Skyline outermost selection (filterOutermost) -/

/-- Column index of a blob: Math.floor(centerX / columnWidth). -/
def colOf (b : BlobStats) : ℤ := ⌊b.centerX / CONFIG.columnWidth⌋

/-- Processing of one blob in the skyline loop: keep the column's current
best unless the new blob has strictly larger centroid-y. -/
def skylineStep (sky : List (Option BlobStats)) (blob : BlobStats) : List (Option BlobStats) :=
  let colIndex := colOf blob
  if 0 ≤ colIndex ∧ colIndex < (sky.length : ℤ) then
    match sky.getD colIndex.toNat none with
    | none => sky.set colIndex.toNat (some blob)
    | some currentBest =>
        if blob.centerY > currentBest.centerY then sky.set colIndex.toNat (some blob)
        else sky
  else sky

/-- Embedding of filterOutermost: ceil(imageWidth / columnWidth) columns,
one skyline slot each, filled by the fold over the blobs, nulls dropped at
the end. -/
def filterOutermost (blobs : List BlobStats) (imageWidth : ℕ) : List BlobStats :=
  if blobs.isEmpty then []
  else
    let numColumns := (⌈(imageWidth : ℚ) / CONFIG.columnWidth⌉).toNat
    let skyline := blobs.foldl skylineStep (List.replicate numColumns none)
    skyline.filterMap id

/-- Invariant of the skyline fold over a processed prefix of the blob
list: an empty slot has seen no blob of its column, and a filled slot
holds a processed blob of that column whose centroid-y is maximal among
processed blobs of the column. -/
def SkyInv (pre : List BlobStats) (sky : List (Option BlobStats)) : Prop :=
  ∀ ci, ci < sky.length →
    (sky.getD ci none = none → ∀ b ∈ pre, colOf b ≠ (ci : ℤ)) ∧
    (∀ best, sky.getD ci none = some best →
      colOf best = (ci : ℤ) ∧ best ∈ pre ∧
      ∀ b ∈ pre, colOf b = (ci : ℤ) → b.centerY ≤ best.centerY)

/-- Blob of the concrete two-blob skyline example with centroid-y 100. -/
def blobA : BlobStats := ⟨100, 0, 0, 0, 0, 10, 100⟩

/-- Blob of the concrete two-blob skyline example with centroid-y 200, in
the same column as the first. -/
def blobB : BlobStats := ⟨100, 0, 0, 0, 0, 20, 200⟩

/-! ## Deskew projection variance (calculateProjectionVariance)

The source computes sin and cos of the candidate angle with Math.sin and
Math.cos; those two transcendental evaluations are abstracted here as the
rational parameters sinA and cosA, and the rest of the function is
embedded as written. -/

/-- Rotated x-coordinate of pixel (x, y) about the image centre:
dx·cos − dy·sin + centerW. -/
def rotXOf (width height : ℕ) (cosA sinA : ℚ) (x y : ℕ) : ℚ :=
  let centerW : ℚ := (width : ℚ) / 2
  let centerH : ℚ := (height : ℚ) / 2
  let dx : ℚ := (x : ℚ) - centerW
  let dy : ℚ := (y : ℚ) - centerH
  dx * cosA - dy * sinA + centerW

/-- Bin selection of the source: Math.floor of the rotated x-coordinate,
as a function of the flat pixel index. -/
def floorBin (width height : ℕ) (cosA sinA : ℚ) : ℕ → ℤ := fun i =>
  ⌊rotXOf width height cosA sinA (i % width) (i / width)⌋

/-- Bin selection as the specification words it: nearest-integer rounding
of the rotated x-coordinate. -/
def roundBin (width height : ℕ) (cosA sinA : ℚ) : ℕ → ℤ := fun i =>
  jround (rotXOf width height cosA sinA (i % width) (i / width))

/-- Body of the accumulation loop of calculateProjectionVariance: add the
pixel's value and one sample to the slot of its floored rotated column
when that column lies inside the image. -/
def projStep (pixels : ℕ → ℕ) (width height : ℕ) (cosA sinA : ℚ)
    (pc : (ℕ → ℚ) × (ℕ → ℕ)) (i : ℕ) : (ℕ → ℚ) × (ℕ → ℕ) :=
  let x := i % width
  let y := i / width
  let bin := floorBin width height cosA sinA i
  if 0 ≤ bin ∧ bin < (width : ℤ) then
    (Function.update pc.1 bin.toNat (pc.1 bin.toNat + pixels (y * width + x)),
     Function.update pc.2 bin.toNat (pc.2 bin.toNat + 1))
  else pc

/-- Accumulation loop of calculateProjectionVariance: per-column value
sums and sample counts over all pixels whose (floored, in-range) rotated
column is that column. -/
def projAccum (pixels : ℕ → ℕ) (width height : ℕ) (cosA sinA : ℚ) : (ℕ → ℚ) × (ℕ → ℕ) :=
  (List.range (width * height)).foldl (projStep pixels width height cosA sinA)
    (fun _ => 0, fun _ => 0)

/-- Body of the normalization loop of calculateProjectionVariance: a
populated column contributes its mean, the square of its mean, and one to
the population count. -/
def colScanStep (pc : (ℕ → ℚ) × (ℕ → ℕ)) (acc : ℚ × ℚ × ℕ) (i : ℕ) : ℚ × ℚ × ℕ :=
  if pc.2 i > 0 then
    let val := pc.1 i / (pc.2 i : ℚ)
    (acc.1 + val, acc.2.1 + val * val, acc.2.2 + 1)
  else acc

/-- Embedding of calculateProjectionVariance: accumulate the per-column
sums and counts, scan the populated columns accumulating the sum and the
sum of squares of the per-column means, return 0 when no column is
populated and the population variance of the means otherwise. -/
def calculateProjectionVariance (pixels : ℕ → ℕ) (width height : ℕ) (cosA sinA : ℚ) : ℚ :=
  let pc := projAccum pixels width height cosA sinA
  let s := (List.range width).foldl (colScanStep pc) ((0 : ℚ), (0 : ℚ), (0 : ℕ))
  if s.2.2 = 0 then 0
  else
    let mean := s.1 / (s.2.2 : ℚ)
    s.2.1 / (s.2.2 : ℚ) - mean * mean

/-- Declarative per-column value sum for an arbitrary binning function. -/
def colSumWith (pixels : ℕ → ℕ) (width height : ℕ) (bin : ℕ → ℤ) (b : ℕ) : ℚ :=
  (((List.range (width * height)).filter (fun i => bin i = (b : ℤ))).map
    (fun i => (pixels i : ℚ))).sum

/-- Declarative per-column sample count for an arbitrary binning
function. -/
def colCountWith (width height : ℕ) (bin : ℕ → ℤ) (b : ℕ) : ℕ :=
  ((List.range (width * height)).filter (fun i => bin i = (b : ℤ))).length

/-- Columns of the image that receive at least one sample. -/
def populatedWith (width height : ℕ) (bin : ℕ → ℤ) : List ℕ :=
  (List.range width).filter (fun b => 0 < colCountWith width height bin b)

/-- Mean of the samples of each populated column. -/
def colMeansWith (pixels : ℕ → ℕ) (width height : ℕ) (bin : ℕ → ℤ) : List ℚ :=
  (populatedWith width height bin).map
    (fun b => colSumWith pixels width height bin b / (colCountWith width height bin b : ℚ))

/-- Population variance of a list of values, 0 for the empty list. -/
def meansVariance (l : List ℚ) : ℚ :=
  if l.length = 0 then 0
  else (l.map (fun v => v * v)).sum / (l.length : ℚ) -
    (l.sum / (l.length : ℚ)) * (l.sum / (l.length : ℚ))

/-- Pixel buffer of the projection-variance counterexample: value 100 at
index 0 of a 2×1 image, value 0 elsewhere. -/
def pix2 : ℕ → ℕ := fun i => if i = 0 then 100 else 0

/-! ## Image enhancement (applyCLAHE, adjustBrightnessContrast,
sharpenImage)

RGBA buffers are functions from flat byte indices: pixel p owns indices
4p (red), 4p+1 (green), 4p+2 (blue) and 4p+3 (alpha). -/

/-- Storage conversion of a Uint8ClampedArray for integer values: clamp
into [0, 255]. -/
def clamp255 (z : ℤ) : ℕ :=
  if z < 0 then 0 else if z > 255 then 255 else z.toNat

/-- Rounded luminance Math.round(0.299 R + 0.587 G + 0.114 B) of pixel p,
used both by the CLAHE grayscale pass and by the auto-levels histogram. -/
def roundLum (data : ℕ → ℕ) (p : ℕ) : ℤ :=
  jround (0.299 * data (4 * p) + 0.587 * data (4 * p + 1) + 0.114 * data (4 * p + 2))

/-- Flat indices of the pixels of the tile [x0, x1) × [y0, y1), in row
order. -/
def tilePixelList (width : ℕ) (x0 x1 y0 y1 : ℕ) : List ℕ :=
  (List.range (y1 - y0)).flatMap
    (fun dy => (List.range (x1 - x0)).map (fun dx => (y0 + dy) * width + (x0 + dx)))

/-- Histogram of a tile: number of tile pixels of each gray value. -/
def tileHist (data : ℕ → ℕ) (width : ℕ) (x0 x1 y0 y1 : ℕ) : ℕ → ℕ := fun v =>
  ((tilePixelList width x0 x1 y0 y1).filter (fun p => (roundLum data p).toNat = v)).length

/-- Total mass removed by clipping every histogram bin at the clip
value. -/
def clippedTotal (hist : ℕ → ℕ) (clipVal : ℤ) : ℤ :=
  ∑ v ∈ Finset.range 256, (if (hist v : ℤ) > clipVal then (hist v : ℤ) - clipVal else 0)

/-- Histogram after clipping each bin at the clip value. -/
def clipHist (hist : ℕ → ℕ) (clipVal : ℤ) : ℕ → ℤ := fun v =>
  if (hist v : ℤ) > clipVal then clipVal else (hist v : ℤ)

/-- Redistribution of the clipped mass: every bin gains the batch
quotient, and the first residual bins one unit more. -/
def redistHist (hist : ℕ → ℤ) (redistBatch residual : ℤ) : ℕ → ℤ := fun v =>
  hist v + redistBatch + (if (v : ℤ) < residual then 1 else 0)

/-- Cumulative distribution function of a histogram, by the source's
left-to-right recurrence. -/
def cdfFrom (hist : ℕ → ℤ) : ℕ → ℤ
  | 0 => hist 0
  | v + 1 => cdfFrom hist v + hist (v + 1)

/-- First positive value of the cdf array, or 0 when there is none
(cdf.find(v => v > 0) || 0). -/
def cdfMinOf (cdf : ℕ → ℤ) : ℤ :=
  match (List.range 256).find? (fun v => 0 < cdf v) with
  | some v => cdf v
  | none => 0

/-- Lookup-table construction of applyCLAHE from a tile's histogram and
pixel count: clip, redistribute, cdf, then normalization by
(cdf[i]-cdfMin)/cdfRange, with the identity mapping when cdfRange is not
positive. -/
def lutFrom (clipLimit : ℚ) (tilePixels : ℕ) (hist : ℕ → ℕ) : ℕ → ℤ := fun i =>
  let clipVal : ℤ := ⌊clipLimit * tilePixels / 256⌋
  let clipped := clippedTotal hist clipVal
  let redistBatch : ℤ := ⌊(clipped : ℚ) / 256⌋
  let residual := clipped - redistBatch * 256
  let hist2 := redistHist (clipHist hist clipVal) redistBatch residual
  let cdf := cdfFrom hist2
  let cdfMin := cdfMinOf cdf
  let cdfRange := (tilePixels : ℤ) - cdfMin
  if cdfRange > 0 then jround (((cdf i - cdfMin : ℤ) : ℚ) / (cdfRange : ℚ) * 255)
  else (i : ℤ)

/-- Per-tile lookup table of applyCLAHE: the lookup table built from the
tile's histogram and pixel count. -/
def tileLut (data : ℕ → ℕ) (width height : ℕ) (clipLimit : ℚ) (tileSize : ℕ)
    (tx ty : ℕ) : ℕ → ℤ :=
  let x0 := tx * tileSize
  let y0 := ty * tileSize
  let x1 := min (x0 + tileSize) width
  let y1 := min (y0 + tileSize) height
  lutFrom clipLimit ((x1 - x0) * (y1 - y0)) (tileHist data width x0 x1 y0 y1)

/-- Embedding of applyCLAHE: every RGB sample is rewritten through the
containing tile's lookup table with hue preservation (rescale by
new/old luminance, or write the new value directly on zero luminance);
the alpha sample is copied. -/
def applyCLAHE (data : ℕ → ℕ) (width height : ℕ) (clipLimit : ℚ) (tileSize : ℕ) :
    ℕ → ℕ := fun idx =>
  let p := idx / 4
  let c := idx % 4
  if p < width * height ∧ c ≠ 3 then
    let x := p % width
    let y := p / width
    let tilesX := (⌈(width : ℚ) / tileSize⌉).toNat
    let tilesY := (⌈(height : ℚ) / tileSize⌉).toNat
    let tx := min (x / tileSize) (tilesX - 1)
    let ty := min (y / tileSize) (tilesY - 1)
    let newVal := tileLut data width height clipLimit tileSize tx ty (roundLum data p).toNat
    let oldLum : ℚ := data (4 * p) * 0.299 + data (4 * p + 1) * 0.587 + data (4 * p + 2) * 0.114
    if oldLum > 0 then clamp255 (min 255 (jround (data (4 * p + c) * ((newVal : ℚ) / oldLum))))
    else clamp255 newVal
  else data idx

/-- Loop of the auto-levels percentile scan: accumulate the histogram,
record the first bin reaching the low percentile while minVal is still 0,
and break at the bin reaching the high percentile. -/
def levelsGo (hist : ℕ → ℕ) (lowP highP : ℤ) : ℕ → ℕ → ℕ → ℤ → ℤ × ℤ
  | _, 0, _, minV => (minV, 255)
  | i, fuel + 1, cumSum, minV =>
    let cumSum2 := cumSum + hist i
    let minV2 := if (cumSum2 : ℤ) ≥ lowP ∧ minV = 0 then (i : ℤ) else minV
    if (cumSum2 : ℤ) ≥ highP then (minV2, (i : ℤ))
    else levelsGo hist lowP highP (i + 1) fuel cumSum2 minV2

/-- Percentile scan over the 256 luminance bins, from bin 0, with initial
cumulative sum 0 and initial minVal 0 and default maxVal 255. -/
def levelsScan (hist : ℕ → ℕ) (lowP highP : ℤ) : ℤ × ℤ :=
  levelsGo hist lowP highP 0 256 0 0

/-- Embedding of adjustBrightnessContrast: 1st/99th percentile
auto-levels over the rounded luminance histogram; the image is returned
unchanged when the range is zero, and alpha is copied otherwise. -/
def adjustBrightnessContrast (data : ℕ → ℕ) (width height : ℕ) : ℕ → ℕ := fun idx =>
  let totalPixels := width * height
  let hist : ℕ → ℕ := fun v =>
    ((List.range totalPixels).filter (fun p => (roundLum data p).toNat = v)).length
  let lowP : ℤ := ⌊(totalPixels : ℚ) * 0.01⌋
  let highP : ℤ := ⌊(totalPixels : ℚ) * 0.99⌋
  let mm := levelsScan hist lowP highP
  let range : ℤ := mm.2 - mm.1
  if range = 0 then data idx
  else
    let p := idx / 4
    let c := idx % 4
    if p < totalPixels ∧ c ≠ 3 then
      (max 0 (min 255 (jround (((data idx : ℚ) - mm.1) / (range : ℚ) * 255)))).toNat
    else data idx

/-- Kernel of the unsharp mask, in row order. -/
def sharpenKernel : ℕ → ℤ := fun k => ([0, -1, 0, -1, 5, -1, 0, -1, 0] : List ℤ).getD k 0

/-- Embedding of sharpenImage: 3×3 convolution on interior RGB samples,
clamped to [0, 255], blended with the original by the amount; all other
samples (border pixels and alpha) are copied. -/
def sharpenImage (data : ℕ → ℕ) (width height : ℕ) (amount : ℚ) : ℕ → ℕ := fun idx =>
  let p := idx / 4
  let c := idx % 4
  let x := p % width
  let y := p / width
  if 1 ≤ x ∧ x < width - 1 ∧ 1 ≤ y ∧ y < height - 1 ∧ c < 3 then
    let sum : ℤ := ∑ ky ∈ Finset.range 3, ∑ kx ∈ Finset.range 3,
      sharpenKernel (ky * 3 + kx) * (data (((y + ky - 1) * width + (x + kx - 1)) * 4 + c) : ℤ)
    let sharpened : ℤ := max 0 (min 255 sum)
    clamp255 (jround ((data idx : ℚ) * (1 - amount) + (sharpened : ℚ) * amount))
  else data idx

/-- Uniform RGB-10 image used by the CLAHE counterexample. -/
def uni10 : ℕ → ℕ := fun i => if i % 4 = 3 then 255 else 10

/-- Uniform black image (RGB 0, opaque alpha). -/
def blackImage : ℕ → ℕ := fun i => if i % 4 = 3 then 255 else 0

/-! ## Connected components (connectedComponents)

The union-find parent array is a growable list; find is the source's
chase-to-the-root while loop, given fuel equal to the array length, which
the scan invariant proves sufficient. -/

/-- Parent pointer of i, with out-of-range entries their own parent. -/
def pstep (parent : List ℕ) (i : ℕ) : ℕ := parent.getD i i

/-- Fuelled while loop of find: follow parent pointers until a fixpoint. -/
def findN (parent : List ℕ) : ℕ → ℕ → ℕ
  | 0, i => i
  | fuel + 1, i => if parent.getD i i = i then i else findN parent fuel (parent.getD i i)

/-- Embedding of find: the chase terminates within parent.length steps on
every state the scan produces. -/
def find (parent : List ℕ) (i : ℕ) : ℕ := findN parent parent.length i

/-- Embedding of union: graft the root of j under the root of i when they
differ. -/
def union (parent : List ℕ) (i j : ℕ) : List ℕ :=
  let rootI := find parent i
  let rootJ := find parent j
  if rootI ≠ rootJ then parent.set rootJ rootI else parent

/-- State of the first labeling pass: the label map, the last label
allocated, and the union-find parent array. -/
structure CCState where
  labels : ℕ → ℕ
  currentLabel : ℕ
  parent : List ℕ

/-- Initial state: no labels, parent array [0]. -/
def ccInit : CCState := ⟨fun _ => 0, 0, [0]⟩

/-- Label of the left neighbour of raster index k (0 at the left edge),
with x = k % width and y = k / width as in the source. -/
def leftLabel (width : ℕ) (s : CCState) (k : ℕ) : ℕ :=
  if k % width > 0 then s.labels (k / width * width + (k % width - 1)) else 0

/-- Label of the top neighbour of raster index k (0 on the first row). -/
def topLabel (width : ℕ) (s : CCState) (k : ℕ) : ℕ :=
  if k / width > 0 then s.labels ((k / width - 1) * width + k % width) else 0

/-- Body of the first pass at raster index k: skip background; otherwise
read the left and top neighbour labels and assign a fresh label, propagate
the single label, or take the minimum and union the two classes. -/
def ccStep (width : ℕ) (binary : ℕ → ℕ) (s : CCState) (k : ℕ) : CCState :=
  if binary k = 0 then s
  else
    let left := leftLabel width s k
    let top := topLabel width s k
    if left = 0 ∧ top = 0 then
      { labels := Function.update s.labels k (s.currentLabel + 1)
        currentLabel := s.currentLabel + 1
        parent := s.parent ++ [s.currentLabel + 1] }
    else if left ≠ 0 ∧ top = 0 then
      { s with labels := Function.update s.labels k left }
    else if left = 0 ∧ top ≠ 0 then
      { s with labels := Function.update s.labels k top }
    else
      { s with labels := Function.update s.labels k (min left top)
               parent := union s.parent left top }

/-- First pass of connectedComponents: raster fold of ccStep. -/
def ccFirstPass (width height : ℕ) (binary : ℕ → ℕ) : CCState :=
  (List.range (width * height)).foldl (ccStep width binary) ccInit

/-- Embedding of connectedComponents: the first pass, then the resolution
pass replacing every positive label by its union-find root, plus the
count of labels allocated. -/
def connectedComponents (binary : ℕ → ℕ) (width height : ℕ) : (ℕ → ℕ) × ℕ :=
  let s := ccFirstPass width height binary
  (fun i => if s.labels i > 0 then find s.parent (s.labels i) else s.labels i, s.currentLabel)

/-- Four-connectivity of two flat pixel indices: equal column and rows
differing by one, or equal row and columns differing by one. -/
def adjPix (width : ℕ) (p q : ℕ) : Prop :=
  (p % width = q % width ∧ (p / width = q / width + 1 ∨ q / width = p / width + 1)) ∨
  (p / width = q / width ∧ (p % width = q % width + 1 ∨ q % width = p % width + 1))

/-- Adjacency of two in-range foreground pixels of the mask. -/
def adjF (width height : ℕ) (binary : ℕ → ℕ) (p q : ℕ) : Prop :=
  p < width * height ∧ q < width * height ∧ binary p ≠ 0 ∧ binary q ≠ 0 ∧ adjPix width p q

/-- Connectivity restricted to pixels of raster index below k. -/
def ConnB (width height : ℕ) (binary : ℕ → ℕ) (k : ℕ) (p q : ℕ) : Prop :=
  Relation.ReflTransGen (fun a b => adjF width height binary a b ∧ a < k ∧ b < k) p q

/-- Reachability of the pixel being processed: z is connected within the
processed prefix to some already-processed neighbour of k. -/
def reachK (width height : ℕ) (binary : ℕ → ℕ) (k z : ℕ) : Prop :=
  ∃ nb, nb < k ∧ adjF width height binary nb k ∧ ConnB width height binary k z nb

/-- Number of roots of the union-find array. -/
def numRoots (parent : List ℕ) : ℕ :=
  ((Finset.range parent.length).filter (fun j => pstep parent j = j)).card

/-- Wellformedness of the union-find state after cur labels: the array
has cur+1 entries, entry 0 is a root, entries stay in [1, cur] for labels
in [1, cur], and every chase reaches a fixpoint with enough fuel to spare
for the roots. -/
def UFInv (parent : List ℕ) (cur : ℕ) : Prop :=
  parent.length = cur + 1 ∧
  pstep parent 0 = 0 ∧
  (∀ j, j ≤ cur → pstep parent j ≤ cur) ∧
  (∀ j, 1 ≤ j → j ≤ cur → 1 ≤ pstep parent j) ∧
  (∀ j, j ≤ cur → ∃ n, (pstep parent)^[n + 1] j = (pstep parent)^[n] j ∧
    n + numRoots parent ≤ parent.length)

/-- Invariant of the labeling scan after the pixels of raster index below
k: the union-find state is wellformed, exactly the processed foreground
pixels carry labels, labels stay within [1, currentLabel], and two
processed foreground pixels share a union-find root exactly when they are
connected within the processed prefix. -/
def ScanInv (width height : ℕ) (binary : ℕ → ℕ) (k : ℕ) (s : CCState) : Prop :=
  UFInv s.parent s.currentLabel ∧
  (∀ i, s.labels i ≠ 0 ↔ (i < k ∧ binary i ≠ 0)) ∧
  (∀ i, i < k → binary i ≠ 0 → s.labels i ≤ s.currentLabel) ∧
  (∀ p q, p < k → q < k → binary p ≠ 0 → binary q ≠ 0 →
    (find s.parent (s.labels p) = find s.parent (s.labels q) ↔
      ConnB width height binary k p q))

/-- Number of distinct nonzero labels present in a label map. -/
def distinctLabelCount (labels : ℕ → ℕ) (width height : ℕ) : ℕ :=
  (((Finset.range (width * height)).image labels) \ {0}).card

/-- Mask of the C3 counterexample: a U shape in a 3×2 image whose two
prongs get provisional labels 1 and 2 and are then merged. -/
def maskU : ℕ → ℕ := fun i => if i = 1 then 0 else if i < 6 then 1 else 0

/-- Label map of a 5-wide, 20-tall solid rectangle filling a 5×20 image. -/
def tallRectLabels : ℕ → ℕ := fun i => if i < 100 then 1 else 0

/-- Label map of a 20-wide, 5-tall solid rectangle filling a 20×5 image. -/
def wideRectLabels : ℕ → ℕ := fun i => if i < 100 then 1 else 0

end CapAnn

/-- C4: isValidLoop accepts a blob iff its area lies in [100, 2000], its
bounding-box aspect height/width is at least 3/2, and its solidity
area/(width·height) is at least 3/5; concretely it accepts the solid
5-wide-by-20-tall rectangle of area 100 and rejects the solid
20-wide-by-5-tall rectangle of area 100. -/
theorem C4_isValidLoop_gates :
    (∀ blob : CapAnn.BlobStats,
      CapAnn.isValidLoop blob = true ↔
        (100 ≤ blob.area ∧ blob.area ≤ 2000 ∧
         (3/2 : ℚ) ≤ (blob.maxY - blob.minY + 1) / (blob.maxX - blob.minX + 1) ∧
         (3/5 : ℚ) ≤ blob.area /
            ((blob.maxX - blob.minX + 1) * (blob.maxY - blob.minY + 1)))) ∧
    CapAnn.isValidLoop (CapAnn.analyzeBlob CapAnn.tallRectLabels 1 5 20) = true ∧
    CapAnn.isValidLoop (CapAnn.analyzeBlob CapAnn.wideRectLabels 1 20 5) = false := by
  refine ⟨fun blob => ?_, ?_, ?_⟩
  case refine_2 =>
    have hscan : CapAnn.blobScan CapAnn.tallRectLabels 1 5 20 = ⟨100, 0, 4, 0, 19, 200, 950⟩ := by
      decide
    simp only [CapAnn.analyzeBlob, hscan]
    norm_num [CapAnn.isValidLoop, CapAnn.CONFIG.minArea, CapAnn.CONFIG.maxArea,
      CapAnn.CONFIG.minAspect, CapAnn.CONFIG.minSolidity]
  case refine_3 =>
    have hscan : CapAnn.blobScan CapAnn.wideRectLabels 1 20 5 = ⟨100, 0, 19, 0, 4, 950, 200⟩ := by
      decide
    simp only [CapAnn.analyzeBlob, hscan]
    norm_num [CapAnn.isValidLoop, CapAnn.CONFIG.minArea, CapAnn.CONFIG.maxArea,
      CapAnn.CONFIG.minAspect, CapAnn.CONFIG.minSolidity]
  constructor
  · intro h
    unfold CapAnn.isValidLoop at h
    simp only [CapAnn.CONFIG.minArea, CapAnn.CONFIG.maxArea,
      CapAnn.CONFIG.minAspect, CapAnn.CONFIG.minSolidity] at h
    split_ifs at h with h1 h2 h3
    push_neg at h1
    exact ⟨h1.1, h1.2, not_lt.mp h2, not_lt.mp h3⟩
  · rintro ⟨ha1, ha2, hc, hd⟩
    unfold CapAnn.isValidLoop
    simp only [CapAnn.CONFIG.minArea, CapAnn.CONFIG.maxArea,
      CapAnn.CONFIG.minAspect, CapAnn.CONFIG.minSolidity]
    split_ifs with h1 h2 h3
    · rcases h1 with h | h
      · exact absurd ha1 (not_le.mpr h)
      · exact absurd ha2 (not_le.mpr h)
    · exact absurd hc (not_le.mpr h2)
    · exact absurd hd (not_le.mpr h3)
    · rfl

/-! ## Morphological opening: helper lemmas -/

theorem erodedMask_spec {binary : ℕ → ℕ} {width height idx : ℕ}
    (h : CapAnn.erodedMask binary width height idx ≠ 0) :
    1 ≤ idx % width ∧ idx % width < width - 1 ∧ 1 ≤ idx / width ∧ idx / width < height - 1 ∧
    binary idx ≠ 0 ∧ binary (idx - 1) ≠ 0 ∧ binary (idx + 1) ≠ 0 ∧
    binary (idx - width) ≠ 0 ∧ binary (idx + width) ≠ 0 := by
  simp only [CapAnn.erodedMask] at h
  split_ifs at h with hc
  · exact hc
  · exact absurd rfl h

/-- C9: morphological opening is anti-extensive (an output foreground pixel
was foreground in the input) and clears the one-pixel image border. -/
theorem C9_morphologyOpen_antiextensive_border (binary : ℕ → ℕ) (width height idx : ℕ) :
    (CapAnn.morphologyOpen binary width height idx ≠ 0 → binary idx ≠ 0) ∧
    (idx < width * height →
      (idx % width = 0 ∨ idx % width = width - 1 ∨ idx / width = 0 ∨ idx / width = height - 1) →
      CapAnn.morphologyOpen binary width height idx = 0) := by
  constructor
  · intro h
    simp only [CapAnn.morphologyOpen] at h
    split_ifs at h with hc
    · obtain ⟨hx1, hx2, hy1, hy2, hd⟩ := hc
      have hw : 0 < width := by omega
      have hix : 1 ≤ idx := le_trans hx1 (Nat.mod_le idx width)
      have hiw : width ≤ idx := (Nat.one_le_div_iff hw).mp hy1
      rcases hd with h0 | h1 | h2 | h3 | h4
      · exact (erodedMask_spec h0).2.2.2.2.1
      · have hb := (erodedMask_spec h1).2.2.2.2.2.2.1
        rwa [Nat.sub_add_cancel hix] at hb
      · have hb := (erodedMask_spec h2).2.2.2.2.2.1
        simpa using hb
      · have hb := (erodedMask_spec h3).2.2.2.2.2.2.2.2
        rwa [Nat.sub_add_cancel hiw] at hb
      · have hb := (erodedMask_spec h4).2.2.2.2.2.2.2.1
        simpa using hb
    · exact absurd rfl h
  · intro hrange hb
    simp only [CapAnn.morphologyOpen]
    split_ifs with hc
    · exfalso
      obtain ⟨hx1, hx2, hy1, hy2, _⟩ := hc
      rcases hb with h | h | h | h <;> omega
    · rfl

/-- Witness for C9 at a plus-shaped blob in a 4×4 mask: pixel (1,1)
survives opening and was a foreground input pixel, and the border pixel 0
is cleared. -/
theorem C9_witness :
    CapAnn.morphologyOpen CapAnn.crossMask 4 4 5 ≠ 0 ∧ CapAnn.crossMask 5 ≠ 0 ∧
    CapAnn.morphologyOpen CapAnn.crossMask 4 4 0 = 0 :=
  ⟨by decide, (C9_morphologyOpen_antiextensive_border CapAnn.crossMask 4 4 5).1 (by decide),
   (C9_morphologyOpen_antiextensive_border CapAnn.crossMask 4 4 0).2 (by norm_num) (by norm_num)⟩

/-! ## Adaptive thresholding on a blank image -/

theorem rowSum_zero (width y x : ℕ) : CapAnn.rowSum (fun _ => 0) width y x = 0 := by
  induction x with
  | zero => rfl
  | succ n ih => simp [CapAnn.rowSum, ih]

theorem integralImg_zero (width y x : ℕ) : CapAnn.integralImg (fun _ => 0) width y x = 0 := by
  induction y with
  | zero => simp [CapAnn.integralImg, rowSum_zero]
  | succ n ih => simp [CapAnn.integralImg, rowSum_zero, ih]

theorem getSum_zero (width height : ℕ) (x1 y1 x2 y2 : ℤ) :
    CapAnn.getSum (fun _ => 0) width height x1 y1 x2 y2 = 0 := by
  simp [CapAnn.getSum, integralImg_zero]

/-- C6: on an all-zero grayscale buffer, adaptive thresholding yields the
all-background mask, for every window size and every nonnegative constant,
and in particular at the configured window 15 and constant 2. -/
theorem C6_adaptiveThreshold_blank (gray : ℕ → ℕ) (width height : ℕ)
    (hg : ∀ j, gray j = 0) :
    (∀ (w : ℕ) (c : ℚ), 0 ≤ c →
      ∀ i, CapAnn.adaptiveThresholdWith w c gray width height i = 0) ∧
    (∀ i, CapAnn.adaptiveThreshold gray width height i = 0) := by
  have hgray : gray = fun _ => 0 := funext hg
  subst hgray
  have main : ∀ (w : ℕ) (c : ℚ), 0 ≤ c →
      ∀ i, CapAnn.adaptiveThresholdWith w c (fun _ => 0) width height i = 0 := by
    intro w c hc i
    simp only [CapAnn.adaptiveThresholdWith, getSum_zero]
    split_ifs with h1 h2
    · exfalso
      rw [Int.cast_zero, zero_div, zero_add] at h2
      exact absurd (lt_of_le_of_lt hc h2) (by norm_num)
    · rfl
    · rfl
  exact ⟨main, main CapAnn.CONFIG.windowSize CapAnn.CONFIG.cConst (by norm_num [CapAnn.CONFIG.cConst])⟩

/-- Witness for C6: a concrete blank 4×4 buffer maps to background at
sample pixels, both for arbitrary window/constant and for the configured
instantiation. -/
theorem C6_witness :
    CapAnn.adaptiveThresholdWith 15 2 (fun _ => 0) 4 4 7 = 0 ∧
    CapAnn.adaptiveThreshold (fun _ => 0) 4 4 0 = 0 :=
  ⟨(C6_adaptiveThreshold_blank (fun _ => 0) 4 4 (fun _ => rfl)).1 15 2 (by norm_num) 7,
   (C6_adaptiveThreshold_blank (fun _ => 0) 4 4 (fun _ => rfl)).2 0⟩

/-! ## Skyline selection: list access lemmas -/

theorem getD_set_self {α : Type} (l : List α) {i : ℕ} (h : i < l.length) (a d : α) :
    (l.set i a).getD i d = a := by
  rw [List.getD_eq_getElem _ _ (by simpa using h)]
  exact List.getElem_set_self _

theorem getD_set_ne {α : Type} (l : List α) {i j : ℕ} (h : i ≠ j) (a : α) (d : α) :
    (l.set i a).getD j d = l.getD j d := by
  simp [List.getD, List.getElem?_set_ne h]

theorem getD_replicate_none {α : Type} {n i : ℕ} (h : i < n) (d : Option α) :
    (List.replicate n (none : Option α)).getD i d = none := by
  have hl : i < (List.replicate n (none : Option α)).length := by simpa using h
  rw [List.getD_eq_getElem _ _ hl, List.getElem_replicate]

theorem mem_filterMap_of_getD {α : Type} {l : List (Option α)} {i : ℕ} {b : α}
    (h : i < l.length) (hg : l.getD i none = some b) : b ∈ l.filterMap id := by
  rw [List.getD_eq_getElem _ _ h] at hg
  exact List.mem_filterMap.mpr ⟨some b, by rw [← hg]; exact l.getElem_mem h, rfl⟩

theorem exists_getD_of_mem_filterMap {α : Type} {l : List (Option α)} {b : α}
    (h : b ∈ l.filterMap id) : ∃ i, i < l.length ∧ l.getD i none = some b := by
  obtain ⟨o, ho, hb⟩ := List.mem_filterMap.mp h
  obtain ⟨i, hi, rfl⟩ := List.mem_iff_getElem.mp ho
  exact ⟨i, hi, by rw [List.getD_eq_getElem _ _ hi]; exact hb⟩

/-! ## Skyline selection: fold invariant -/

theorem skylineStep_length (sky : List (Option CapAnn.BlobStats)) (b : CapAnn.BlobStats) :
    (CapAnn.skylineStep sky b).length = sky.length := by
  by_cases hc : 0 ≤ CapAnn.colOf b ∧ CapAnn.colOf b < (sky.length : ℤ)
  · simp only [CapAnn.skylineStep]
    rw [if_pos hc]
    rcases sky.getD (CapAnn.colOf b).toNat none with _ | best
    · simp
    · dsimp only
      split_ifs <;> simp
  · simp only [CapAnn.skylineStep]
    rw [if_neg hc]

theorem skyInv_step {pre : List CapAnn.BlobStats} {sky : List (Option CapAnn.BlobStats)}
    {b : CapAnn.BlobStats} (h : CapAnn.SkyInv pre sky) :
    CapAnn.SkyInv (pre ++ [b]) (CapAnn.skylineStep sky b) := by
  intro ci hci
  rw [skylineStep_length] at hci
  by_cases hc : 0 ≤ CapAnn.colOf b ∧ CapAnn.colOf b < (sky.length : ℤ)
  case neg =>
    have hbci : ∀ cj : ℕ, cj < sky.length → CapAnn.colOf b ≠ (cj : ℤ) := by
      intro cj hcj hcol
      exact hc ⟨hcol ▸ Int.natCast_nonneg cj, hcol ▸ (by exact_mod_cast hcj)⟩
    have hstep : CapAnn.skylineStep sky b = sky := by
      simp only [CapAnn.skylineStep]
      rw [if_neg hc]
    rw [hstep]
    obtain ⟨hn, hs⟩ := h ci hci
    constructor
    · intro hnone b2 hb2
      simp only [List.mem_append, List.mem_singleton] at hb2
      rcases hb2 with hb2 | rfl
      · exact hn hnone b2 hb2
      · exact hbci ci hci
    · intro best hbest
      obtain ⟨h1, h2, h3⟩ := hs best hbest
      refine ⟨h1, List.mem_append.mpr (Or.inl h2), ?_⟩
      intro b2 hb2 hcol
      simp only [List.mem_append, List.mem_singleton] at hb2
      rcases hb2 with hb2 | rfl
      · exact h3 b2 hb2 hcol
      · exact absurd hcol (hbci ci hci)
  case pos =>
    obtain ⟨hge, hlt⟩ := hc
    have hcast : ((CapAnn.colOf b).toNat : ℤ) = CapAnn.colOf b := Int.toNat_of_nonneg hge
    have hci0lt : (CapAnn.colOf b).toNat < sky.length := by
      have := hcast ▸ hlt; exact_mod_cast this
    have hc2 : 0 ≤ CapAnn.colOf b ∧ CapAnn.colOf b < (sky.length : ℤ) := ⟨hge, hlt⟩
    rcases hcb : sky.getD (CapAnn.colOf b).toNat none with _ | best
    case none =>
      have hstep : CapAnn.skylineStep sky b = sky.set (CapAnn.colOf b).toNat (some b) := by
        simp only [CapAnn.skylineStep]
        rw [if_pos hc2, hcb]
      rw [hstep]
      by_cases hcieq : ci = (CapAnn.colOf b).toNat
      · subst hcieq
        constructor
        · intro hnone
          rw [getD_set_self _ hci0lt] at hnone
          cases hnone
        · intro best2 hbest2
          rw [getD_set_self _ hci0lt] at hbest2
          injection hbest2 with hbb
          subst hbb
          refine ⟨hcast.symm, List.mem_append.mpr (Or.inr (by simp)), ?_⟩
          intro b2 hb2 hcol
          simp only [List.mem_append, List.mem_singleton] at hb2
          rcases hb2 with hb2 | rfl
          · exact absurd hcol ((h _ hci0lt).1 hcb b2 hb2)
          · exact le_refl _
      · have hgd : (sky.set (CapAnn.colOf b).toNat (some b)).getD ci none = sky.getD ci none :=
          getD_set_ne _ (fun hx => hcieq hx.symm) _ _
        rw [hgd]
        have hbnotci : CapAnn.colOf b ≠ (ci : ℤ) := by
          intro hcol
          exact hcieq (by exact_mod_cast (hcast.trans hcol).symm)
        obtain ⟨hn, hs⟩ := h ci hci
        constructor
        · intro hnone b2 hb2
          simp only [List.mem_append, List.mem_singleton] at hb2
          rcases hb2 with hb2 | rfl
          · exact hn hnone b2 hb2
          · exact hbnotci
        · intro best2 hbest2
          obtain ⟨h1, h2, h3⟩ := hs best2 hbest2
          refine ⟨h1, List.mem_append.mpr (Or.inl h2), ?_⟩
          intro b2 hb2 hcol
          simp only [List.mem_append, List.mem_singleton] at hb2
          rcases hb2 with hb2 | rfl
          · exact h3 b2 hb2 hcol
          · exact absurd hcol hbnotci
    case some =>
      by_cases hgt : b.centerY > best.centerY
      · have hstep : CapAnn.skylineStep sky b = sky.set (CapAnn.colOf b).toNat (some b) := by
          simp only [CapAnn.skylineStep]
          rw [if_pos hc2, hcb]
          simp [hgt]
        rw [hstep]
        by_cases hcieq : ci = (CapAnn.colOf b).toNat
        · subst hcieq
          constructor
          · intro hnone
            rw [getD_set_self _ hci0lt] at hnone
            cases hnone
          · intro best2 hbest2
            rw [getD_set_self _ hci0lt] at hbest2
            injection hbest2 with hbb
            subst hbb
            refine ⟨hcast.symm, List.mem_append.mpr (Or.inr (by simp)), ?_⟩
            intro b2 hb2 hcol
            simp only [List.mem_append, List.mem_singleton] at hb2
            rcases hb2 with hb2 | rfl
            · exact le_trans (((h _ hci0lt).2 best hcb).2.2 b2 hb2 hcol) (le_of_lt hgt)
            · exact le_refl _
        · have hgd : (sky.set (CapAnn.colOf b).toNat (some b)).getD ci none = sky.getD ci none :=
            getD_set_ne _ (fun hx => hcieq hx.symm) _ _
          rw [hgd]
          have hbnotci : CapAnn.colOf b ≠ (ci : ℤ) := by
            intro hcol
            exact hcieq (by exact_mod_cast (hcast.trans hcol).symm)
          obtain ⟨hn, hs⟩ := h ci hci
          constructor
          · intro hnone b2 hb2
            simp only [List.mem_append, List.mem_singleton] at hb2
            rcases hb2 with hb2 | rfl
            · exact hn hnone b2 hb2
            · exact hbnotci
          · intro best2 hbest2
            obtain ⟨h1, h2, h3⟩ := hs best2 hbest2
            refine ⟨h1, List.mem_append.mpr (Or.inl h2), ?_⟩
            intro b2 hb2 hcol
            simp only [List.mem_append, List.mem_singleton] at hb2
            rcases hb2 with hb2 | rfl
            · exact h3 b2 hb2 hcol
            · exact absurd hcol hbnotci
      · have hstep : CapAnn.skylineStep sky b = sky := by
          simp only [CapAnn.skylineStep]
          rw [if_pos hc2, hcb]
          simp [hgt]
        rw [hstep]
        obtain ⟨hn, hs⟩ := h ci hci
        by_cases hcieq : ci = (CapAnn.colOf b).toNat
        · subst hcieq
          constructor
          · intro hnone
            rw [hcb] at hnone
            cases hnone
          · intro best2 hbest2
            rw [hcb] at hbest2
            injection hbest2 with hbb
            subst hbb
            obtain ⟨h1, h2, h3⟩ := hs best hcb
            refine ⟨h1, List.mem_append.mpr (Or.inl h2), ?_⟩
            intro b2 hb2 hcol
            simp only [List.mem_append, List.mem_singleton] at hb2
            rcases hb2 with hb2 | rfl
            · exact h3 b2 hb2 hcol
            · exact not_lt.mp hgt
        · have hbnotci : CapAnn.colOf b ≠ (ci : ℤ) := by
            intro hcol
            exact hcieq (by exact_mod_cast (hcast.trans hcol).symm)
          constructor
          · intro hnone b2 hb2
            simp only [List.mem_append, List.mem_singleton] at hb2
            rcases hb2 with hb2 | rfl
            · exact hn hnone b2 hb2
            · exact hbnotci
          · intro best2 hbest2
            obtain ⟨h1, h2, h3⟩ := hs best2 hbest2
            refine ⟨h1, List.mem_append.mpr (Or.inl h2), ?_⟩
            intro b2 hb2 hcol
            simp only [List.mem_append, List.mem_singleton] at hb2
            rcases hb2 with hb2 | rfl
            · exact h3 b2 hb2 hcol
            · exact absurd hcol hbnotci

theorem skyInv_foldl (rest : List CapAnn.BlobStats) :
    ∀ (pre : List CapAnn.BlobStats) (sky : List (Option CapAnn.BlobStats)),
      CapAnn.SkyInv pre sky →
      CapAnn.SkyInv (pre ++ rest) (List.foldl CapAnn.skylineStep sky rest) := by
  induction rest with
  | nil => intro pre sky h; simpa using h
  | cons r rest ih =>
    intro pre sky h
    have h2 := ih (pre ++ [r]) (CapAnn.skylineStep sky r) (skyInv_step h)
    simpa using h2

theorem foldl_skylineStep_length (rest : List CapAnn.BlobStats) :
    ∀ sky : List (Option CapAnn.BlobStats),
      (List.foldl CapAnn.skylineStep sky rest).length = sky.length := by
  induction rest with
  | nil => intro sky; rfl
  | cons r rest ih => intro sky; rw [List.foldl_cons, ih, skylineStep_length]

/-- C5: the skyline selector assigns each blob to the width-50 column of
its centroid-x and keeps, per column, exactly one blob, of maximal
centroid-y among the column's blobs; every populated column is
represented; and on two same-column blobs with centroid-y 100 and 200
only the one at 200 is returned. -/
theorem C5_filterOutermost_skyline (blobs : List CapAnn.BlobStats) (imageWidth : ℕ)
    (hx : ∀ b ∈ blobs, 0 ≤ b.centerX ∧ b.centerX < (imageWidth : ℚ)) :
    (∀ b ∈ CapAnn.filterOutermost blobs imageWidth,
        b ∈ blobs ∧ ∀ b2 ∈ blobs, CapAnn.colOf b2 = CapAnn.colOf b → b2.centerY ≤ b.centerY) ∧
    (∀ b ∈ CapAnn.filterOutermost blobs imageWidth,
      ∀ b2 ∈ CapAnn.filterOutermost blobs imageWidth,
        CapAnn.colOf b = CapAnn.colOf b2 → b = b2) ∧
    (∀ b2 ∈ blobs, ∃ b ∈ CapAnn.filterOutermost blobs imageWidth,
        CapAnn.colOf b = CapAnn.colOf b2) ∧
    CapAnn.filterOutermost [CapAnn.blobA, CapAnn.blobB] 100 = [CapAnn.blobB] := by
  have hconc : CapAnn.filterOutermost [CapAnn.blobA, CapAnn.blobB] 100 = [CapAnn.blobB] := by
    have hA : CapAnn.colOf CapAnn.blobA = 0 := by
      norm_num [CapAnn.colOf, CapAnn.blobA, CapAnn.CONFIG.columnWidth]
    have hB : CapAnn.colOf CapAnn.blobB = 0 := by
      norm_num [CapAnn.colOf, CapAnn.blobB, CapAnn.CONFIG.columnWidth]
    have hn : (⌈(100 : ℚ) / CapAnn.CONFIG.columnWidth⌉).toNat = 2 := by
      have h2 : ⌈(100 : ℚ) / CapAnn.CONFIG.columnWidth⌉ = 2 := by
        norm_num [CapAnn.CONFIG.columnWidth]
      rw [h2]
      rfl
    simp only [CapAnn.filterOutermost, List.isEmpty_cons, Nat.cast_ofNat, hn,
      List.foldl_cons, List.foldl_nil, Bool.false_eq_true, if_false]
    rw [show (List.replicate 2 (none : Option CapAnn.BlobStats)) = [none, none] from rfl]
    rw [show CapAnn.skylineStep [none, none] CapAnn.blobA = [some CapAnn.blobA, none] by
      simp only [CapAnn.skylineStep, hA]
      norm_num]
    rw [show CapAnn.skylineStep [some CapAnn.blobA, none] CapAnn.blobB = [some CapAnn.blobB, none] by
      simp only [CapAnn.skylineStep, hB]
      norm_num [CapAnn.blobA, CapAnn.blobB]]
    rfl
  rcases hempty : blobs.isEmpty with hfalse | htrue
  case true =>
    rw [List.isEmpty_iff] at hempty
    subst hempty
    have hres : CapAnn.filterOutermost [] imageWidth = [] := rfl
    refine ⟨?_, ?_, ?_, hconc⟩ <;> simp [hres]
  case false =>
    have hne : ¬(blobs.isEmpty = true) := by rw [hempty]; exact Bool.false_ne_true
    set n := (⌈(imageWidth : ℚ) / CapAnn.CONFIG.columnWidth⌉).toNat with hndef
    set sky := blobs.foldl CapAnn.skylineStep (List.replicate n none) with hskydef
    have hres : CapAnn.filterOutermost blobs imageWidth = sky.filterMap id := by
      simp only [CapAnn.filterOutermost, if_neg hne, hskydef, hndef]
    have hinv0 : CapAnn.SkyInv [] (List.replicate n none) := by
      intro ci hci
      rw [List.length_replicate] at hci
      constructor
      · intro _ b hb
        cases hb
      · intro best hbest
        rw [getD_replicate_none hci] at hbest
        cases hbest
    have hinv : CapAnn.SkyInv blobs sky := by
      have h2 := skyInv_foldl blobs [] (List.replicate n none) hinv0
      simpa [hskydef] using h2
    have hlen : sky.length = n := by
      rw [hskydef, foldl_skylineStep_length, List.length_replicate]
    refine ⟨?_, ?_, ?_, hconc⟩
    · intro b hb
      rw [hres] at hb
      obtain ⟨ci, hci, hgd⟩ := exists_getD_of_mem_filterMap hb
      obtain ⟨hcol, hmem, hmax⟩ := (hinv ci hci).2 b hgd
      exact ⟨hmem, fun b2 hb2 hcol2 => hmax b2 hb2 (hcol2.trans hcol)⟩
    · intro b hb b2 hb2 hcol
      rw [hres] at hb hb2
      obtain ⟨ci, hci, hgd⟩ := exists_getD_of_mem_filterMap hb
      obtain ⟨cj, hcj, hgd2⟩ := exists_getD_of_mem_filterMap hb2
      have hcoli := ((hinv ci hci).2 b hgd).1
      have hcolj := ((hinv cj hcj).2 b2 hgd2).1
      have hij : ci = cj := by
        have : (ci : ℤ) = (cj : ℤ) := by rw [← hcoli, ← hcolj, hcol]
        exact_mod_cast this
      subst hij
      rw [hgd] at hgd2
      injection hgd2
    · intro b2 hb2
      obtain ⟨hge, hlt⟩ := hx b2 hb2
      have h50 : (0 : ℚ) < CapAnn.CONFIG.columnWidth := by norm_num [CapAnn.CONFIG.columnWidth]
      have hcol0 : 0 ≤ CapAnn.colOf b2 :=
        Int.floor_nonneg.mpr (div_nonneg hge h50.le)
      have hceil0 : 0 ≤ ⌈(imageWidth : ℚ) / CapAnn.CONFIG.columnWidth⌉ :=
        Int.ceil_nonneg (div_nonneg (by positivity) h50.le)
      have hcoln : CapAnn.colOf b2 < (n : ℤ) := by
        rw [hndef, Int.toNat_of_nonneg hceil0]
        refine Int.floor_lt.mpr (lt_of_lt_of_le ?_ (Int.le_ceil _))
        exact div_lt_div_of_pos_right hlt h50
      have hcast : ((CapAnn.colOf b2).toNat : ℤ) = CapAnn.colOf b2 := Int.toNat_of_nonneg hcol0
      have hcilt : (CapAnn.colOf b2).toNat < sky.length := by
        rw [hlen]
        exact_mod_cast hcast ▸ hcoln
      rcases hs : sky.getD (CapAnn.colOf b2).toNat none with _ | best
      · exact absurd hcast.symm ((hinv _ hcilt).1 hs b2 hb2)
      · refine ⟨best, ?_, ?_⟩
        · rw [hres]
          exact mem_filterMap_of_getD hcilt hs
        · rw [((hinv _ hcilt).2 best hs).1, hcast]

/-- Witness for C5: the two-blob instantiation of the skyline theorem. -/
theorem C5_witness :
    CapAnn.filterOutermost [CapAnn.blobA, CapAnn.blobB] 100 = [CapAnn.blobB] :=
  (C5_filterOutermost_skyline [CapAnn.blobA, CapAnn.blobB] 100 (by
    intro b hb
    simp only [List.mem_cons, List.mem_singleton, List.not_mem_nil, or_false] at hb
    rcases hb with rfl | rfl <;>
      norm_num [CapAnn.blobA, CapAnn.blobB])).2.2.2

/-! ## Projection variance: fold characterizations -/

theorem projAccum_foldl_spec (pixels : ℕ → ℕ) (width height : ℕ) (cosA sinA : ℚ) {b : ℕ}
    (hb : b < width) :
    ∀ (l : List ℕ) (p : ℕ → ℚ) (c : ℕ → ℕ),
      ((l.foldl (CapAnn.projStep pixels width height cosA sinA) (p, c)).1 b =
        p b + ((l.filter (fun i => CapAnn.floorBin width height cosA sinA i = (b : ℤ))).map
          (fun i => (pixels i : ℚ))).sum) ∧
      ((l.foldl (CapAnn.projStep pixels width height cosA sinA) (p, c)).2 b =
        c b + (l.filter (fun i => CapAnn.floorBin width height cosA sinA i = (b : ℤ))).length) := by
  intro l
  induction l with
  | nil => intro p c; simp
  | cons i l ih =>
    intro p c
    rw [List.foldl_cons]
    have hidx : i / width * width + i % width = i := by
      rw [mul_comm]; exact Nat.div_add_mod i width
    by_cases hbi : CapAnn.floorBin width height cosA sinA i = (b : ℤ)
    · have hir : 0 ≤ CapAnn.floorBin width height cosA sinA i ∧
          CapAnn.floorBin width height cosA sinA i < (width : ℤ) := by
        refine ⟨hbi ▸ Int.natCast_nonneg b, hbi ▸ ?_⟩
        exact_mod_cast hb
      have hstep : CapAnn.projStep pixels width height cosA sinA (p, c) i =
          (Function.update p b (p b + pixels (i / width * width + i % width)),
           Function.update c b (c b + 1)) := by
        simp only [CapAnn.projStep]
        rw [if_pos hir, hbi]
        rw [Int.toNat_natCast]
      rw [hstep]
      obtain ⟨ih1, ih2⟩ :=
        ih (Function.update p b (p b + pixels (i / width * width + i % width)))
           (Function.update c b (c b + 1))
      have hfc : (i :: l).filter (fun j => CapAnn.floorBin width height cosA sinA j = (b : ℤ))
          = i :: l.filter (fun j => CapAnn.floorBin width height cosA sinA j = (b : ℤ)) :=
        List.filter_cons_of_pos (by simpa using hbi)
      constructor
      · rw [ih1, Function.update_same, hfc, List.map_cons, List.sum_cons, hidx]
        ring
      · rw [ih2, Function.update_same, hfc, List.length_cons]
        omega
    · have hstep : (CapAnn.projStep pixels width height cosA sinA (p, c) i).1 b = p b ∧
          (CapAnn.projStep pixels width height cosA sinA (p, c) i).2 b = c b := by
        simp only [CapAnn.projStep]
        split_ifs with hir
        · have hne : (CapAnn.floorBin width height cosA sinA i).toNat ≠ b := by
            intro h
            exact hbi (by rw [← h, Int.toNat_of_nonneg hir.1])
          exact ⟨Function.update_noteq (Ne.symm hne) _ _, Function.update_noteq (Ne.symm hne) _ _⟩
        · exact ⟨rfl, rfl⟩
      have hfc : (i :: l).filter (fun j => CapAnn.floorBin width height cosA sinA j = (b : ℤ))
          = l.filter (fun j => CapAnn.floorBin width height cosA sinA j = (b : ℤ)) :=
        List.filter_cons_of_neg (by simpa using hbi)
      have heta : CapAnn.projStep pixels width height cosA sinA (p, c) i =
          ((CapAnn.projStep pixels width height cosA sinA (p, c) i).1,
           (CapAnn.projStep pixels width height cosA sinA (p, c) i).2) := rfl
      rw [heta]
      obtain ⟨ih1, ih2⟩ :=
        ih (CapAnn.projStep pixels width height cosA sinA (p, c) i).1
           (CapAnn.projStep pixels width height cosA sinA (p, c) i).2
      exact ⟨by rw [ih1, hstep.1, hfc], by rw [ih2, hstep.2, hfc]⟩

theorem colScan_foldl_spec (pc : (ℕ → ℚ) × (ℕ → ℕ)) :
    ∀ (l : List ℕ) (acc : ℚ × ℚ × ℕ),
      l.foldl (CapAnn.colScanStep pc) acc =
        (acc.1 + ((l.filter (fun i => 0 < pc.2 i)).map (fun i => pc.1 i / (pc.2 i : ℚ))).sum,
         acc.2.1 + ((l.filter (fun i => 0 < pc.2 i)).map
            (fun i => pc.1 i / (pc.2 i : ℚ) * (pc.1 i / (pc.2 i : ℚ)))).sum,
         acc.2.2 + (l.filter (fun i => 0 < pc.2 i)).length) := by
  intro l
  induction l with
  | nil => intro acc; simp
  | cons i l ih =>
    intro acc
    rw [List.foldl_cons]
    by_cases hpos : 0 < pc.2 i
    · have hstep : CapAnn.colScanStep pc acc i =
          (acc.1 + pc.1 i / (pc.2 i : ℚ),
           acc.2.1 + pc.1 i / (pc.2 i : ℚ) * (pc.1 i / (pc.2 i : ℚ)), acc.2.2 + 1) := by
        simp only [CapAnn.colScanStep]
        rw [if_pos hpos]
      have hfc : (i :: l).filter (fun j => 0 < pc.2 j) = i :: l.filter (fun j => 0 < pc.2 j) :=
        List.filter_cons_of_pos (by simpa using hpos)
      rw [hstep, ih, hfc]
      refine Prod.ext ?_ (Prod.ext ?_ ?_) <;> simp <;> try ring
    · have hstep : CapAnn.colScanStep pc acc i = acc := by
        simp only [CapAnn.colScanStep]
        rw [if_neg hpos]
      have hfc : (i :: l).filter (fun j => 0 < pc.2 j) = l.filter (fun j => 0 < pc.2 j) :=
        List.filter_cons_of_neg (by simpa using hpos)
      rw [hstep, ih, hfc]

/-- C7 (amended): the projection-variance computation buckets each pixel
by the floor (not the nearest integer) of its rotated x-coordinate,
discarding out-of-range columns, and returns the population variance of
the per-column means over the populated columns. -/
theorem C7_projection_floor_binning (pixels : ℕ → ℕ) (width height : ℕ) (cosA sinA : ℚ) :
    (∀ b, b < width →
      (CapAnn.projAccum pixels width height cosA sinA).1 b =
        CapAnn.colSumWith pixels width height (CapAnn.floorBin width height cosA sinA) b ∧
      (CapAnn.projAccum pixels width height cosA sinA).2 b =
        CapAnn.colCountWith width height (CapAnn.floorBin width height cosA sinA) b) ∧
    CapAnn.calculateProjectionVariance pixels width height cosA sinA =
      CapAnn.meansVariance
        (CapAnn.colMeansWith pixels width height (CapAnn.floorBin width height cosA sinA)) := by
  have part1 : ∀ b, b < width →
      (CapAnn.projAccum pixels width height cosA sinA).1 b =
        CapAnn.colSumWith pixels width height (CapAnn.floorBin width height cosA sinA) b ∧
      (CapAnn.projAccum pixels width height cosA sinA).2 b =
        CapAnn.colCountWith width height (CapAnn.floorBin width height cosA sinA) b := by
    intro b hb
    obtain ⟨h1, h2⟩ := projAccum_foldl_spec pixels width height cosA sinA hb
      (List.range (width * height)) (fun _ => 0) (fun _ => 0)
    constructor
    · rw [CapAnn.projAccum, h1, CapAnn.colSumWith, zero_add]
    · rw [CapAnn.projAccum, h2, CapAnn.colCountWith, zero_add]
  refine ⟨part1, ?_⟩
  simp only [CapAnn.calculateProjectionVariance]
  rw [colScan_foldl_spec]
  have hfilter : (List.range width).filter
        (fun i => 0 < (CapAnn.projAccum pixels width height cosA sinA).2 i) =
      CapAnn.populatedWith width height (CapAnn.floorBin width height cosA sinA) := by
    rw [CapAnn.populatedWith]
    apply List.filter_congr
    intro a ha
    simp [(part1 a (List.mem_range.mp ha)).2]
  have hmean : ((List.range width).filter
        (fun i => 0 < (CapAnn.projAccum pixels width height cosA sinA).2 i)).map
        (fun i => (CapAnn.projAccum pixels width height cosA sinA).1 i /
          ((CapAnn.projAccum pixels width height cosA sinA).2 i : ℚ)) =
      CapAnn.colMeansWith pixels width height (CapAnn.floorBin width height cosA sinA) := by
    rw [hfilter, CapAnn.colMeansWith]
    apply List.map_congr_left
    intro a ha
    have haw : a < width := List.mem_range.mp (List.mem_of_mem_filter ha)
    rw [(part1 a haw).1, (part1 a haw).2]
  have hsq : ((List.range width).filter
        (fun i => 0 < (CapAnn.projAccum pixels width height cosA sinA).2 i)).map
        (fun i => (CapAnn.projAccum pixels width height cosA sinA).1 i /
            ((CapAnn.projAccum pixels width height cosA sinA).2 i : ℚ) *
          ((CapAnn.projAccum pixels width height cosA sinA).1 i /
            ((CapAnn.projAccum pixels width height cosA sinA).2 i : ℚ))) =
      (CapAnn.colMeansWith pixels width height
          (CapAnn.floorBin width height cosA sinA)).map (fun v => v * v) := by
    rw [← hmean, List.map_map]
    rfl
  have hlen : ((List.range width).filter
        (fun i => 0 < (CapAnn.projAccum pixels width height cosA sinA).2 i)).length =
      (CapAnn.colMeansWith pixels width height
        (CapAnn.floorBin width height cosA sinA)).length := by
    rw [← hmean, List.length_map]
  rw [CapAnn.meansVariance, ← hsq, ← hlen, ← hmean]
  simp

/-- C8: when no column of the image receives any sample, the
projection-variance function returns 0 (it is total by construction). -/
theorem C8_no_samples_zero (pixels : ℕ → ℕ) (width height : ℕ) (cosA sinA : ℚ)
    (h : ∀ b, b < width → (CapAnn.projAccum pixels width height cosA sinA).2 b = 0) :
    CapAnn.calculateProjectionVariance pixels width height cosA sinA = 0 := by
  simp only [CapAnn.calculateProjectionVariance]
  rw [colScan_foldl_spec]
  have hfe : (List.range width).filter
      (fun i => 0 < (CapAnn.projAccum pixels width height cosA sinA).2 i) = [] := by
    rw [List.filter_eq_nil_iff]
    intro a ha
    simp [h a (List.mem_range.mp ha)]
  rw [hfe]
  simp

/-- Witness for C8: a 1×1 image at a rotation with cosine -1 sends its
only pixel out of range, so no column is populated and the variance is 0. -/
theorem C8_witness :
    (∀ b, b < 1 → (CapAnn.projAccum (fun _ => 100) 1 1 (-1) 0).2 b = 0) ∧
    CapAnn.calculateProjectionVariance (fun _ => 100) 1 1 (-1) 0 = 0 := by
  have hbin : CapAnn.floorBin 1 1 (-1) 0 0 = 1 := by
    norm_num [CapAnn.floorBin, CapAnn.rotXOf]
  have hcount : ∀ b, b < 1 → (CapAnn.projAccum (fun _ => 100) 1 1 (-1) 0).2 b = 0 := by
    intro b hb
    interval_cases b
    rw [CapAnn.projAccum, show List.range (1 * 1) = [0] from rfl, List.foldl_cons,
      List.foldl_nil]
    norm_num [CapAnn.projStep, hbin]
  exact ⟨hcount, C8_no_samples_zero (fun _ => 100) 1 1 (-1) 0 hcount⟩

/-- Counterexample for C7 as stated: on a 2×1 image at the rotation with
cosine 3/5 and sine 4/5, the code floors the rotated coordinate 4/5 of
pixel 0 into column 0 and returns variance 2500, while nearest-integer
rounding as worded by the specification would merge both pixels into
column 1 and give variance 0. -/
theorem C7_counterexample :
    CapAnn.calculateProjectionVariance CapAnn.pix2 2 1 (3/5) (4/5) ≠
      CapAnn.meansVariance
        (CapAnn.colMeansWith CapAnn.pix2 2 1 (CapAnn.roundBin 2 1 (3/5) (4/5))) := by
  have hb0 : CapAnn.floorBin 2 1 (3/5) (4/5) 0 = 0 := by
    norm_num [CapAnn.floorBin, CapAnn.rotXOf]
  have hb1 : CapAnn.floorBin 2 1 (3/5) (4/5) 1 = 1 := by
    norm_num [CapAnn.floorBin, CapAnn.rotXOf]
  have hr0 : CapAnn.roundBin 2 1 (3/5) (4/5) 0 = 1 := by
    norm_num [CapAnn.roundBin, CapAnn.rotXOf, CapAnn.jround]
  have hr1 : CapAnn.roundBin 2 1 (3/5) (4/5) 1 = 1 := by
    norm_num [CapAnn.roundBin, CapAnn.rotXOf, CapAnn.jround]
  have e1 : (CapAnn.projAccum CapAnn.pix2 2 1 (3/5) (4/5)).1 0 = 100 := by
    obtain ⟨h1, _⟩ := projAccum_foldl_spec CapAnn.pix2 2 1 (3/5) (4/5)
      (show (0 : ℕ) < 2 by norm_num) (List.range (2 * 1)) (fun _ => 0) (fun _ => 0)
    rw [CapAnn.projAccum, h1, show List.range (2 * 1) = [0, 1] from rfl]
    simp [hb0, hb1, CapAnn.pix2]
  have e2 : (CapAnn.projAccum CapAnn.pix2 2 1 (3/5) (4/5)).1 1 = 0 := by
    obtain ⟨h1, _⟩ := projAccum_foldl_spec CapAnn.pix2 2 1 (3/5) (4/5)
      (show (1 : ℕ) < 2 by norm_num) (List.range (2 * 1)) (fun _ => 0) (fun _ => 0)
    rw [CapAnn.projAccum, h1, show List.range (2 * 1) = [0, 1] from rfl]
    simp [hb0, hb1, CapAnn.pix2]
  have e3 : (CapAnn.projAccum CapAnn.pix2 2 1 (3/5) (4/5)).2 0 = 1 := by
    obtain ⟨_, h2⟩ := projAccum_foldl_spec CapAnn.pix2 2 1 (3/5) (4/5)
      (show (0 : ℕ) < 2 by norm_num) (List.range (2 * 1)) (fun _ => 0) (fun _ => 0)
    rw [CapAnn.projAccum, h2, show List.range (2 * 1) = [0, 1] from rfl]
    simp [hb0, hb1]
  have e4 : (CapAnn.projAccum CapAnn.pix2 2 1 (3/5) (4/5)).2 1 = 1 := by
    obtain ⟨_, h2⟩ := projAccum_foldl_spec CapAnn.pix2 2 1 (3/5) (4/5)
      (show (1 : ℕ) < 2 by norm_num) (List.range (2 * 1)) (fun _ => 0) (fun _ => 0)
    rw [CapAnn.projAccum, h2, show List.range (2 * 1) = [0, 1] from rfl]
    simp [hb0, hb1]
  have hL : CapAnn.calculateProjectionVariance CapAnn.pix2 2 1 (3/5) (4/5) = 2500 := by
    simp only [CapAnn.calculateProjectionVariance]
    rw [colScan_foldl_spec, show List.range 2 = [0, 1] from rfl]
    rw [show ([0, 1] : List ℕ).filter
        (fun i => 0 < (CapAnn.projAccum CapAnn.pix2 2 1 (3/5) (4/5)).2 i) = [0, 1] by
      simp [e3, e4]]
    simp only [List.map_cons, List.map_nil, List.sum_cons, List.sum_nil, List.length_cons,
      List.length_nil, e1, e2, e3, e4]
    norm_num
  have g0 : CapAnn.colCountWith 2 1 (CapAnn.roundBin 2 1 (3/5) (4/5)) 0 = 0 := by
    rw [CapAnn.colCountWith, show List.range (2 * 1) = [0, 1] from rfl]
    simp [hr0, hr1]
  have g1 : CapAnn.colCountWith 2 1 (CapAnn.roundBin 2 1 (3/5) (4/5)) 1 = 2 := by
    rw [CapAnn.colCountWith, show List.range (2 * 1) = [0, 1] from rfl]
    simp [hr0, hr1]
  have gpop : CapAnn.populatedWith 2 1 (CapAnn.roundBin 2 1 (3/5) (4/5)) = [1] := by
    rw [CapAnn.populatedWith, show List.range 2 = [0, 1] from rfl]
    simp [g0, g1]
  have gsum : CapAnn.colSumWith CapAnn.pix2 2 1 (CapAnn.roundBin 2 1 (3/5) (4/5)) 1 = 100 := by
    rw [CapAnn.colSumWith, show List.range (2 * 1) = [0, 1] from rfl]
    simp [hr0, hr1, CapAnn.pix2]
  have gmeans : CapAnn.colMeansWith CapAnn.pix2 2 1 (CapAnn.roundBin 2 1 (3/5) (4/5)) = [50] := by
    rw [CapAnn.colMeansWith, gpop]
    simp [gsum, g1]
    norm_num
  rw [hL, gmeans, CapAnn.meansVariance]
  norm_num

/-- C10: every stage of the enhancement pipeline leaves every alpha
sample (byte index congruent to 3 mod 4) equal to its input value. -/
theorem C10_alpha_preserved (data : ℕ → ℕ) (width height : ℕ) (clipLimit : ℚ)
    (tileSize : ℕ) (amount : ℚ) (idx : ℕ) (hc : idx % 4 = 3) :
    CapAnn.applyCLAHE data width height clipLimit tileSize idx = data idx ∧
    CapAnn.adjustBrightnessContrast data width height idx = data idx ∧
    CapAnn.sharpenImage data width height amount idx = data idx := by
  refine ⟨?_, ?_, ?_⟩
  · simp only [CapAnn.applyCLAHE]
    rw [if_neg (fun h => h.2 hc)]
  · simp only [CapAnn.adjustBrightnessContrast]
    split_ifs with h1 h2
    · rfl
    · exact absurd hc h2.2
    · rfl
  · simp only [CapAnn.sharpenImage]
    rw [if_neg]
    intro h
    obtain ⟨-, -, -, -, h5⟩ := h
    omega

/-- Witness for C10 at a constant buffer: the alpha byte of pixel 0 is
unchanged by all three stages. -/
theorem C10_witness :
    CapAnn.applyCLAHE (fun _ => 7) 1 1 (5/2) 8 3 = 7 ∧
    CapAnn.adjustBrightnessContrast (fun _ => 7) 1 1 3 = 7 ∧
    CapAnn.sharpenImage (fun _ => 7) 1 1 (3/5) 3 = 7 :=
  C10_alpha_preserved (fun _ => 7) 1 1 (5/2) 8 (3/5) 3 (by norm_num)

/-! ## CLAHE: uniform-tile analysis -/

theorem tilePixelList_length (width x0 x1 y0 y1 : ℕ) :
    (CapAnn.tilePixelList width x0 x1 y0 y1).length = (x1 - x0) * (y1 - y0) := by
  simp [CapAnn.tilePixelList, Function.comp_def, mul_comm]

theorem tileHist_uniform {data : ℕ → ℕ} {width x0 x1 y0 y1 : ℕ} {g : ℕ}
    (hg : ∀ p ∈ CapAnn.tilePixelList width x0 x1 y0 y1, (CapAnn.roundLum data p).toNat = g) :
    CapAnn.tileHist data width x0 x1 y0 y1 =
      fun v => if v = g then (x1 - x0) * (y1 - y0) else 0 := by
  funext v
  rw [CapAnn.tileHist]
  by_cases hv : v = g
  · subst hv
    rw [if_pos rfl, ← tilePixelList_length width x0 x1 y0 y1]
    congr 1
    rw [List.filter_eq_self]
    intro p hp
    simpa using hg p hp
  · rw [if_neg hv]
    have hnil : (CapAnn.tilePixelList width x0 x1 y0 y1).filter
        (fun p => (CapAnn.roundLum data p).toNat = v) = [] := by
      rw [List.filter_eq_nil_iff]
      intro p hp
      simp [hg p hp, Ne.symm hv]
    rw [hnil]
    rfl

theorem clippedTotal_delta {g N : ℕ} (hg : g < 256) {clipVal : ℤ} (hcv : 0 ≤ clipVal) :
    CapAnn.clippedTotal (fun v => if v = g then N else 0) clipVal =
      if (N : ℤ) > clipVal then (N : ℤ) - clipVal else 0 := by
  have h0 : ∀ v ∈ Finset.range 256, v ≠ g →
      (if (((if v = g then N else 0 : ℕ)) : ℤ) > clipVal
        then (((if v = g then N else 0 : ℕ)) : ℤ) - clipVal else 0) = 0 := by
    intro v _ hvg
    simp only [if_neg hvg, Nat.cast_zero]
    rw [if_neg (by omega)]
  rw [CapAnn.clippedTotal, Finset.sum_eq_single_of_mem g (Finset.mem_range.mpr hg) h0]
  simp

theorem cdfMinOf_head {cdf : ℕ → ℤ} (h : 0 < cdf 0) : CapAnn.cdfMinOf cdf = cdf 0 := by
  rw [CapAnn.cdfMinOf, show (256 : ℕ) = 255 + 1 from rfl, List.range_succ_eq_map,
    List.find?_cons_of_pos _ (by simpa using h)]

theorem lutFrom_uniform_zero {N : ℕ} (hN : 0 < N) :
    CapAnn.lutFrom (5/2) N (fun v => if v = 0 then N else 0) 0 = 0 := by
  simp only [CapAnn.lutFrom]
  set clipVal : ℤ := ⌊(5/2 : ℚ) * N / 256⌋ with hclip
  have hNQ : (0 : ℚ) < N := by exact_mod_cast hN
  have hcv0 : 0 ≤ clipVal := by
    rw [hclip]
    exact Int.floor_nonneg.mpr (by positivity)
  have hcvN : clipVal < (N : ℤ) := by
    rw [hclip]
    refine Int.floor_lt.mpr ?_
    push_cast
    rw [div_lt_iff₀ (by norm_num : (0 : ℚ) < 256)]
    nlinarith
  have hclipped : CapAnn.clippedTotal (fun v => if v = 0 then N else 0) clipVal
      = (N : ℤ) - clipVal := by
    rw [clippedTotal_delta (by norm_num) hcv0, if_pos hcvN]
  rw [hclipped]
  set RB : ℤ := ⌊(((N : ℤ) - clipVal : ℤ) : ℚ) / 256⌋ with hRB
  have hq0 : (0 : ℚ) ≤ (((N : ℤ) - clipVal : ℤ) : ℚ) / 256 := by
    apply div_nonneg _ (by norm_num)
    push_cast
    have : (clipVal : ℚ) < (N : ℚ) := by exact_mod_cast hcvN
    linarith
  have hRB0 : 0 ≤ RB := by
    rw [hRB]
    exact Int.floor_nonneg.mpr hq0
  have hflo : (RB : ℚ) ≤ (((N : ℤ) - clipVal : ℤ) : ℚ) / 256 := by
    rw [hRB]
    exact Int.floor_le _
  have hfhi : (((N : ℤ) - clipVal : ℤ) : ℚ) / 256 < (RB : ℚ) + 1 := by
    rw [hRB]
    exact Int.lt_floor_add_one _
  have hlo : 256 * RB ≤ (N : ℤ) - clipVal := by
    have h2 : (256 : ℚ) * (RB : ℚ) ≤ (((N : ℤ) - clipVal : ℤ) : ℚ) := by
      calc (256 : ℚ) * (RB : ℚ) ≤ 256 * ((((N : ℤ) - clipVal : ℤ) : ℚ) / 256) := by
            linarith
        _ = (((N : ℤ) - clipVal : ℤ) : ℚ) := by ring
    exact_mod_cast h2
  have hhi : (N : ℤ) - clipVal < 256 * RB + 256 := by
    have h2 : (((N : ℤ) - clipVal : ℤ) : ℚ) < 256 * (RB : ℚ) + 256 := by
      calc (((N : ℤ) - clipVal : ℤ) : ℚ) = 256 * ((((N : ℤ) - clipVal : ℤ) : ℚ) / 256) := by
            ring
        _ < 256 * ((RB : ℚ) + 1) := by linarith
        _ = 256 * (RB : ℚ) + 256 := by ring
    exact_mod_cast h2
  have hcdfzero : CapAnn.cdfFrom
      (CapAnn.redistHist (CapAnn.clipHist (fun v => if v = 0 then N else 0) clipVal) RB
        ((N : ℤ) - clipVal - RB * 256)) 0
      = clipVal + RB + (if (0 : ℤ) < (N : ℤ) - clipVal - RB * 256 then 1 else 0) := by
    show CapAnn.redistHist _ _ _ 0 = _
    have hch : CapAnn.clipHist (fun v => if v = 0 then N else 0) clipVal 0 = clipVal := by
      simp only [CapAnn.clipHist]
      simp [hcvN]
    simp only [CapAnn.redistHist]
    rw [hch]
    norm_num
  have hcdfpos : 0 < CapAnn.cdfFrom
      (CapAnn.redistHist (CapAnn.clipHist (fun v => if v = 0 then N else 0) clipVal) RB
        ((N : ℤ) - clipVal - RB * 256)) 0 := by
    rw [hcdfzero]
    split_ifs with hres <;> omega
  rw [cdfMinOf_head hcdfpos]
  split_ifs with hrange
  · rw [sub_self]
    norm_num [CapAnn.jround]
  · norm_num

theorem cdfFrom_eq_sum (h : ℕ → ℤ) (v : ℕ) :
    CapAnn.cdfFrom h v = ∑ u ∈ Finset.range (v + 1), h u := by
  induction v with
  | zero => simp [CapAnn.cdfFrom]
  | succ n ih =>
    rw [CapAnn.cdfFrom, ih]
    exact (Finset.sum_range_succ h (n + 1)).symm

theorem tileLut_black (data : ℕ → ℕ) (width height : ℕ)
    (hlum : ∀ p, CapAnn.roundLum data p = 0) (tx ty : ℕ)
    (hx0 : tx * 8 < width) (hy0 : ty * 8 < height) :
    CapAnn.tileLut data width height (5/2) 8 tx ty 0 = 0 := by
  simp only [CapAnn.tileLut]
  rw [tileHist_uniform (g := 0) (fun p _ => by rw [hlum p]; rfl)]
  apply lutFrom_uniform_zero
  apply Nat.mul_pos
  · exact Nat.sub_pos_of_lt (lt_min (by omega) hx0)
  · exact Nat.sub_pos_of_lt (lt_min (by omega) hy0)

/-- C2 (amended): applyCLAHE at the configured clip limit 2.5 and tile
size 8 maps the uniform black image to itself, at every byte index and
for all image dimensions. -/
theorem C2_applyCLAHE_black (data : ℕ → ℕ) (width height : ℕ)
    (hdata : ∀ i, i % 4 ≠ 3 → data i = 0) (idx : ℕ) :
    CapAnn.applyCLAHE data width height (5/2) 8 idx = data idx := by
  have hlum : ∀ p, CapAnn.roundLum data p = 0 := by
    intro p
    rw [CapAnn.roundLum, hdata (4 * p) (by omega), hdata (4 * p + 1) (by omega),
      hdata (4 * p + 2) (by omega)]
    norm_num [CapAnn.jround]
  simp only [CapAnn.applyCLAHE]
  split_ifs with hg hl
  · exfalso
    rw [hdata (4 * (idx / 4)) (by omega), hdata (4 * (idx / 4) + 1) (by omega),
      hdata (4 * (idx / 4) + 2) (by omega)] at hl
    norm_num at hl
  · obtain ⟨hp, hc⟩ := hg
    have hw : 0 < width := by
      rcases Nat.eq_zero_or_pos width with h0 | h
      · rw [h0] at hp; simp at hp
      · exact h
    rw [hlum (idx / 4), Int.toNat_zero,
      tileLut_black data width height hlum _ _
        (lt_of_le_of_lt (Nat.mul_le_mul_right 8 (min_le_left _ _))
          (lt_of_le_of_lt (Nat.div_mul_le_self _ _) (Nat.mod_lt _ hw)))
        (lt_of_le_of_lt (Nat.mul_le_mul_right 8 (min_le_left _ _))
          (lt_of_le_of_lt (Nat.div_mul_le_self _ _)
            ((Nat.div_lt_iff_lt_mul hw).mpr (by rw [mul_comm]; exact hp))))]
    rw [hdata idx hc]
    rfl
  · rfl

/-- Witness for C2's amended statement: the black 8×8 image is unchanged
at byte 0. -/
theorem C2_witness :
    CapAnn.applyCLAHE CapAnn.blackImage 8 8 (5/2) 8 0 = 0 :=
  C2_applyCLAHE_black CapAnn.blackImage 8 8
    (fun i hi => by simp [CapAnn.blackImage, hi]) 0

theorem uni10_lum (p : ℕ) : CapAnn.roundLum CapAnn.uni10 p = 10 := by
  have e0 : (4 * p) % 4 = 0 := by omega
  have e1 : (4 * p + 1) % 4 = 1 := by omega
  have e2 : (4 * p + 2) % 4 = 2 := by omega
  rw [CapAnn.roundLum]
  rw [show CapAnn.uni10 (4 * p) = 10 by simp [CapAnn.uni10, e0]]
  rw [show CapAnn.uni10 (4 * p + 1) = 10 by simp [CapAnn.uni10, e1]]
  rw [show CapAnn.uni10 (4 * p + 2) = 10 by simp [CapAnn.uni10, e2]]
  norm_num [CapAnn.jround]

theorem lutFrom_delta10 :
    CapAnn.lutFrom (5/2) 64 (fun v => if v = 10 then 64 else 0) 10 = 40 := by
  simp only [CapAnn.lutFrom]
  rw [show ⌊(5 / 2 : ℚ) * ((64 : ℕ) : ℚ) / 256⌋ = (0 : ℤ) by norm_num]
  rw [show CapAnn.clippedTotal (fun v => if v = 10 then 64 else 0) 0 = 64 by
    rw [clippedTotal_delta (by norm_num) le_rfl]; norm_num]
  rw [show ⌊((64 : ℤ) : ℚ) / 256⌋ = (0 : ℤ) by norm_num]
  rw [show (64 : ℤ) - 0 * 256 = 64 by norm_num]
  have hh2 : ∀ u, u < 64 →
      CapAnn.redistHist (CapAnn.clipHist (fun v => if v = 10 then 64 else 0) 0) 0 64 u = 1 := by
    intro u hu
    simp only [CapAnn.redistHist, CapAnn.clipHist]
    by_cases h10 : u = 10
    · subst h10
      norm_num
    · rw [if_neg h10]
      have : ((u : ℤ)) < 64 := by exact_mod_cast hu
      simp [this]
  have hcdf0 : CapAnn.cdfFrom
      (CapAnn.redistHist (CapAnn.clipHist (fun v => if v = 10 then 64 else 0) 0) 0 64) 0 = 1 := by
    rw [show CapAnn.cdfFrom
        (CapAnn.redistHist (CapAnn.clipHist (fun v => if v = 10 then 64 else 0) 0) 0 64) 0 =
      CapAnn.redistHist (CapAnn.clipHist (fun v => if v = 10 then 64 else 0) 0) 0 64 0 from rfl]
    exact hh2 0 (by norm_num)
  have hcdf10 : CapAnn.cdfFrom
      (CapAnn.redistHist (CapAnn.clipHist (fun v => if v = 10 then 64 else 0) 0) 0 64) 10
      = 11 := by
    rw [cdfFrom_eq_sum]
    rw [Finset.sum_congr rfl (fun u hu => hh2 u (by
      have := Finset.mem_range.mp hu
      omega))]
    simp
  rw [cdfMinOf_head (by rw [hcdf0]; norm_num), hcdf0, hcdf10]
  norm_num [CapAnn.jround]

theorem tileLut_uni10 : CapAnn.tileLut CapAnn.uni10 8 8 (5/2) 8 0 0 10 = 40 := by
  have hb : CapAnn.tileLut CapAnn.uni10 8 8 (5/2) 8 0 0 =
      CapAnn.lutFrom (5/2) 64 (CapAnn.tileHist CapAnn.uni10 8 0 8 0 8) := by
    simp only [CapAnn.tileLut]
    norm_num
  rw [hb, tileHist_uniform (g := 10) (fun p _ => by rw [uni10_lum p]; rfl)]
  have : (fun v => if v = 10 then (8 - 0) * (8 - 0) else 0) =
      (fun v => if v = 10 then 64 else 0 : ℕ → ℕ) := by
    norm_num
  rw [this]
  exact lutFrom_delta10

theorem applyCLAHE_uni10 (c : ℕ) (hc : c < 3) :
    CapAnn.applyCLAHE CapAnn.uni10 8 8 (5/2) 8 c = 40 := by
  have hc4 : c / 4 = 0 := by omega
  have hcm : c % 4 = c := by omega
  simp only [CapAnn.applyCLAHE]
  rw [if_pos ⟨by omega, by omega⟩, hc4]
  rw [uni10_lum 0]
  rw [show ((10 : ℤ)).toNat = 10 from rfl]
  rw [show CapAnn.uni10 (4 * 0) = 10 by simp [CapAnn.uni10]]
  rw [show CapAnn.uni10 (4 * 0 + 1) = 10 by simp [CapAnn.uni10]]
  rw [show CapAnn.uni10 (4 * 0 + 2) = 10 by simp [CapAnn.uni10]]
  rw [if_pos (by norm_num : ((10 : ℕ) : ℚ) * 0.299 + (10 : ℕ) * 0.587 + (10 : ℕ) * 0.114 > 0)]
  rw [hcm]
  rw [show (⌈((8 : ℕ) : ℚ) / ((8 : ℕ) : ℚ)⌉).toNat = 1 by norm_num]
  rw [show (0 ⊓ (1 - 1) : ℕ) = 0 from rfl]
  rw [tileLut_uni10]
  rw [show CapAnn.uni10 (4 * 0 + c) = 10 by simp [CapAnn.uni10]; omega]
  norm_num [CapAnn.jround, CapAnn.clamp255]
  rfl

/-- Counterexample for C2 as stated: the uniform gray-10 8×8 image is not
returned unchanged in luminance; the clip limit floor(2.5·64/256) = 0
flattens the single occupied histogram bin, the rebuilt lookup table maps
10 to 40, and pixel 0 comes back with luminance 40 instead of 10. -/
theorem C2_counterexample :
    ¬(0.299 * (CapAnn.applyCLAHE CapAnn.uni10 8 8 (5/2) 8 0 : ℚ)
        + 0.587 * (CapAnn.applyCLAHE CapAnn.uni10 8 8 (5/2) 8 1 : ℚ)
        + 0.114 * (CapAnn.applyCLAHE CapAnn.uni10 8 8 (5/2) 8 2 : ℚ)
      = 0.299 * (CapAnn.uni10 0 : ℚ) + 0.587 * (CapAnn.uni10 1 : ℚ)
        + 0.114 * (CapAnn.uni10 2 : ℚ)) := by
  rw [applyCLAHE_uni10 0 (by norm_num), applyCLAHE_uni10 1 (by norm_num),
    applyCLAHE_uni10 2 (by norm_num)]
  norm_num [CapAnn.uni10]

/-! ## Union-find: the fuelled find chase -/

theorem findN_eq_of_fix (parent : List ℕ) :
    ∀ (fuel n j : ℕ), n ≤ fuel →
      (CapAnn.pstep parent)^[n + 1] j = (CapAnn.pstep parent)^[n] j →
      CapAnn.findN parent fuel j = (CapAnn.pstep parent)^[n] j := by
  intro fuel
  induction fuel with
  | zero =>
    intro n j hn hfix
    interval_cases n
    simp [CapAnn.findN]
  | succ fuel ih =>
    intro n j hn hfix
    rw [CapAnn.findN]
    split_ifs with hj
    · exact (Function.iterate_fixed (show CapAnn.pstep parent j = j from hj) n).symm
    · rcases n with _ | m
      · exfalso
        simp only [Function.iterate_one, Function.iterate_zero, id] at hfix
        exact hj hfix
      · have hfix2 : (CapAnn.pstep parent)^[m + 1] (CapAnn.pstep parent j)
            = (CapAnn.pstep parent)^[m] (CapAnn.pstep parent j) := by
          rw [← Function.iterate_succ_apply, ← Function.iterate_succ_apply]
          exact hfix
        have hres := ih m (CapAnn.pstep parent j) (by omega) hfix2
        rw [Function.iterate_succ_apply]
        exact hres

theorem numRoots_pos {parent : List ℕ} {cur : ℕ} (h : CapAnn.UFInv parent cur) :
    1 ≤ CapAnn.numRoots parent := by
  obtain ⟨hlen, h0, -, -, -⟩ := h
  refine Finset.card_pos.mpr ⟨0, ?_⟩
  rw [Finset.mem_filter, Finset.mem_range]
  exact ⟨by omega, h0⟩

theorem find_eq_iterate {parent : List ℕ} {cur : ℕ} (h : CapAnn.UFInv parent cur) {j : ℕ}
    (hj : j ≤ cur) :
    ∃ n, CapAnn.find parent j = (CapAnn.pstep parent)^[n] j ∧
      (CapAnn.pstep parent)^[n + 1] j = (CapAnn.pstep parent)^[n] j ∧
      n + CapAnn.numRoots parent ≤ parent.length := by
  have hroots := numRoots_pos h
  obtain ⟨hlen, h0, hb, h1, hfix⟩ := h
  obtain ⟨n, hfx, hn⟩ := hfix j hj
  exact ⟨n, findN_eq_of_fix parent parent.length n j (by omega) hfx, hfx, hn⟩

theorem iterate_le {parent : List ℕ} {cur : ℕ} (h : CapAnn.UFInv parent cur) {j : ℕ}
    (hj : j ≤ cur) (m : ℕ) : (CapAnn.pstep parent)^[m] j ≤ cur := by
  induction m with
  | zero => simpa using hj
  | succ m ih =>
    rw [Function.iterate_succ_apply']
    exact h.2.2.1 _ ih

theorem iterate_one_le {parent : List ℕ} {cur : ℕ} (h : CapAnn.UFInv parent cur) {j : ℕ}
    (hj1 : 1 ≤ j) (hj : j ≤ cur) (m : ℕ) : 1 ≤ (CapAnn.pstep parent)^[m] j := by
  induction m with
  | zero => simpa using hj1
  | succ m ih =>
    rw [Function.iterate_succ_apply']
    exact h.2.2.2.1 _ ih (iterate_le h hj m)

theorem find_le {parent : List ℕ} {cur : ℕ} (h : CapAnn.UFInv parent cur) {j : ℕ}
    (hj : j ≤ cur) : CapAnn.find parent j ≤ cur := by
  obtain ⟨n, hfind, -, -⟩ := find_eq_iterate h hj
  rw [hfind]
  exact iterate_le h hj n

theorem find_one_le {parent : List ℕ} {cur : ℕ} (h : CapAnn.UFInv parent cur) {j : ℕ}
    (hj1 : 1 ≤ j) (hj : j ≤ cur) : 1 ≤ CapAnn.find parent j := by
  obtain ⟨n, hfind, -, -⟩ := find_eq_iterate h hj
  rw [hfind]
  exact iterate_one_le h hj1 hj n

theorem find_isFix {parent : List ℕ} {cur : ℕ} (h : CapAnn.UFInv parent cur) {j : ℕ}
    (hj : j ≤ cur) : CapAnn.pstep parent (CapAnn.find parent j) = CapAnn.find parent j := by
  obtain ⟨n, hfind, hfx, -⟩ := find_eq_iterate h hj
  rw [hfind]
  exact (Function.iterate_succ_apply' (CapAnn.pstep parent) n j).symm.trans hfx

theorem find_fix_self {parent : List ℕ} {j : ℕ} (hj : CapAnn.pstep parent j = j) :
    CapAnn.find parent j = j :=
  findN_eq_of_fix parent parent.length 0 j (by omega) (by simpa using hj)

theorem link_spec {parent : List ℕ} {cur : ℕ} (h : CapAnn.UFInv parent cur) {rI rJ : ℕ}
    (hfI : CapAnn.pstep parent rI = rI) (hfJ : CapAnn.pstep parent rJ = rJ) (hne : rI ≠ rJ)
    (hrI1 : 1 ≤ rI) (hrIc : rI ≤ cur) (hrJ1 : 1 ≤ rJ) (hrJc : rJ ≤ cur) :
    CapAnn.UFInv (parent.set rJ rI) cur ∧
    ∀ j, j ≤ cur → CapAnn.find (parent.set rJ rI) j =
      if CapAnn.find parent j = rJ then rI else CapAnn.find parent j := by
  have hlen := h.1
  have hrJlt : rJ < parent.length := by omega
  have hps_ne : ∀ x, x ≠ rJ → CapAnn.pstep (parent.set rJ rI) x = CapAnn.pstep parent x := by
    intro x hx
    simp only [CapAnn.pstep]
    exact getD_set_ne parent (fun he => hx he.symm) rI x
  have hpsJ : CapAnn.pstep (parent.set rJ rI) rJ = rI := by
    simp only [CapAnn.pstep]
    exact getD_set_self parent hrJlt rI rJ
  have hmemJ : rJ ∈ (Finset.range parent.length).filter (fun x => CapAnn.pstep parent x = x) := by
    rw [Finset.mem_filter, Finset.mem_range]
    exact ⟨hrJlt, hfJ⟩
  have hfilter : (Finset.range (parent.set rJ rI).length).filter
        (fun x => CapAnn.pstep (parent.set rJ rI) x = x) =
      ((Finset.range parent.length).filter (fun x => CapAnn.pstep parent x = x)).erase rJ := by
    ext x
    simp only [Finset.mem_erase, Finset.mem_filter, Finset.mem_range, List.length_set]
    constructor
    · rintro ⟨hx, hfx⟩
      by_cases hxJ : x = rJ
      · subst hxJ
        rw [hpsJ] at hfx
        exact absurd hfx hne
      · rw [hps_ne x hxJ] at hfx
        exact ⟨hxJ, hx, hfx⟩
    · rintro ⟨hxJ, hx, hfx⟩
      rw [← hps_ne x hxJ] at hfx
      exact ⟨hx, hfx⟩
  have hroots2 : CapAnn.numRoots (parent.set rJ rI) = CapAnn.numRoots parent - 1 := by
    rw [CapAnn.numRoots, CapAnn.numRoots, hfilter, Finset.card_erase_of_mem hmemJ]
  have main : ∀ j, j ≤ cur →
      ∃ m, ((CapAnn.pstep (parent.set rJ rI))^[m + 1] j = (CapAnn.pstep (parent.set rJ rI))^[m] j) ∧
        m + CapAnn.numRoots (parent.set rJ rI) ≤ (parent.set rJ rI).length ∧
        CapAnn.find (parent.set rJ rI) j =
          (if CapAnn.find parent j = rJ then rI else CapAnn.find parent j) := by
    intro j hj
    obtain ⟨n, hfindn, hfxn, hbound⟩ := find_eq_iterate h hj
    have hex : ∃ m, (CapAnn.pstep parent)^[m + 1] j = (CapAnn.pstep parent)^[m] j := ⟨n, hfxn⟩
    set n0 := Nat.find hex with hn0def
    have hP0 : (CapAnn.pstep parent)^[n0 + 1] j = (CapAnn.pstep parent)^[n0] j := Nat.find_spec hex
    have hn0n : n0 ≤ n := Nat.find_min' hex hfxn
    have hnonfix : ∀ i, i < n0 →
        CapAnn.pstep parent ((CapAnn.pstep parent)^[i] j) ≠ (CapAnn.pstep parent)^[i] j := by
      intro i hi hcontra
      exact Nat.find_min hex hi ((Function.iterate_succ_apply' _ i j).trans hcontra)
    have hnoJ : ∀ i, i < n0 → (CapAnn.pstep parent)^[i] j ≠ rJ := by
      intro i hi hcontra
      exact hnonfix i hi (by rw [hcontra]; exact hfJ)
    have hpath : ∀ i, i ≤ n0 →
        (CapAnn.pstep (parent.set rJ rI))^[i] j = (CapAnn.pstep parent)^[i] j := by
      intro i hi
      induction i with
      | zero => rfl
      | succ i ih =>
        rw [Function.iterate_succ_apply', Function.iterate_succ_apply',
          ih (by omega), hps_ne _ (hnoJ i (by omega))]
    have hr_fix : CapAnn.pstep parent ((CapAnn.pstep parent)^[n0] j)
        = (CapAnn.pstep parent)^[n0] j :=
      (Function.iterate_succ_apply' _ n0 j).symm.trans hP0
    have hfind_j : CapAnn.find parent j = (CapAnn.pstep parent)^[n0] j :=
      findN_eq_of_fix parent parent.length n0 j (by omega) hP0
    have hroots1 := numRoots_pos h
    by_cases hcase : (CapAnn.pstep parent)^[n0] j = rJ
    · -- the old root is rJ: the new chase continues one step to rI
      have hstep1 : (CapAnn.pstep (parent.set rJ rI))^[n0 + 1] j = rI := by
        rw [Function.iterate_succ_apply', hpath n0 le_rfl, hcase, hpsJ]
      have hfix1 : (CapAnn.pstep (parent.set rJ rI))^[n0 + 2] j
          = (CapAnn.pstep (parent.set rJ rI))^[n0 + 1] j := by
        have e1 : (CapAnn.pstep (parent.set rJ rI))^[n0 + 2] j
            = CapAnn.pstep (parent.set rJ rI) ((CapAnn.pstep (parent.set rJ rI))^[n0 + 1] j) :=
          Function.iterate_succ_apply' _ (n0 + 1) j
        rw [e1, hstep1, hps_ne rI hne, hfI]
      have h2roots : 2 ≤ CapAnn.numRoots parent := by
        refine Finset.one_lt_card.mpr ⟨rI, ?_, rJ, hmemJ, hne⟩
        rw [Finset.mem_filter, Finset.mem_range]
        exact ⟨by omega, hfI⟩
      refine ⟨n0 + 1, hfix1, ?_, ?_⟩
      · rw [hroots2, List.length_set]
        omega
      · rw [hfind_j, if_pos hcase]
        exact (findN_eq_of_fix (parent.set rJ rI) (parent.set rJ rI).length (n0 + 1) j
          (by rw [List.length_set]; omega) hfix1).trans hstep1
    · -- the old root is untouched
      have hfix0 : (CapAnn.pstep (parent.set rJ rI))^[n0 + 1] j
          = (CapAnn.pstep (parent.set rJ rI))^[n0] j := by
        rw [Function.iterate_succ_apply', hpath n0 le_rfl, hps_ne _ hcase, hr_fix,
          ← hpath n0 le_rfl]
      refine ⟨n0, hfix0, ?_, ?_⟩
      · rw [hroots2, List.length_set]
        omega
      · rw [hfind_j, if_neg hcase]
        exact (findN_eq_of_fix (parent.set rJ rI) (parent.set rJ rI).length n0 j
          (by rw [List.length_set]; omega) hfix0).trans (hpath n0 le_rfl)
  constructor
  · refine ⟨by rw [List.length_set]; exact hlen, ?_, ?_, ?_, ?_⟩
    · rw [hps_ne 0 (by omega)]
      exact h.2.1
    · intro x hx
      by_cases hxJ : x = rJ
      · subst hxJ
        rw [hpsJ]
        exact hrIc
      · rw [hps_ne x hxJ]
        exact h.2.2.1 x hx
    · intro x hx1 hx
      by_cases hxJ : x = rJ
      · subst hxJ
        rw [hpsJ]
        exact hrI1
      · rw [hps_ne x hxJ]
        exact h.2.2.2.1 x hx1 hx
    · intro x hx
      obtain ⟨m, hfix, hbound, -⟩ := main x hx
      exact ⟨m, hfix, hbound⟩
  · intro j hj
    obtain ⟨m, -, -, hfind⟩ := main j hj
    exact hfind

theorem union_spec {parent : List ℕ} {cur : ℕ} (h : CapAnn.UFInv parent cur) {a b : ℕ}
    (ha1 : 1 ≤ a) (ha : a ≤ cur) (hb1 : 1 ≤ b) (hb : b ≤ cur) :
    CapAnn.UFInv (CapAnn.union parent a b) cur ∧
    ∀ j, j ≤ cur → CapAnn.find (CapAnn.union parent a b) j =
      (if CapAnn.find parent j = CapAnn.find parent b then CapAnn.find parent a
       else CapAnn.find parent j) := by
  by_cases hrr : CapAnn.find parent a = CapAnn.find parent b
  · have hu : CapAnn.union parent a b = parent := by
      simp only [CapAnn.union]
      rw [if_neg (fun hne => hne hrr)]
    rw [hu]
    refine ⟨h, ?_⟩
    intro j hj
    split_ifs with hjb
    · rw [hjb, hrr]
    · rfl
  · have hu : CapAnn.union parent a b =
        parent.set (CapAnn.find parent b) (CapAnn.find parent a) := by
      simp only [CapAnn.union]
      rw [if_pos hrr]
    rw [hu]
    exact link_spec h (find_isFix h ha) (find_isFix h hb) hrr
      (find_one_le h ha1 ha) (find_le h ha) (find_one_le h hb1 hb) (find_le h hb)

theorem push_spec {parent : List ℕ} {cur : ℕ} (h : CapAnn.UFInv parent cur) :
    CapAnn.UFInv (parent ++ [cur + 1]) (cur + 1) ∧
    (∀ j, j ≤ cur → CapAnn.find (parent ++ [cur + 1]) j = CapAnn.find parent j) ∧
    CapAnn.find (parent ++ [cur + 1]) (cur + 1) = cur + 1 := by
  have hlen := h.1
  have hps_lt : ∀ x, x ≤ cur → CapAnn.pstep (parent ++ [cur + 1]) x = CapAnn.pstep parent x := by
    intro x hx
    simp only [CapAnn.pstep]
    exact List.getD_append parent [cur + 1] x x (by omega)
  have hps_new : CapAnn.pstep (parent ++ [cur + 1]) (cur + 1) = cur + 1 := by
    simp only [CapAnn.pstep]
    rw [List.getD_eq_getElem _ _ (by simp [hlen])]
    exact List.getElem_concat_length _ _ _ hlen.symm _
  have hiter : ∀ j, j ≤ cur → ∀ m,
      (CapAnn.pstep (parent ++ [cur + 1]))^[m] j = (CapAnn.pstep parent)^[m] j := by
    intro j hj m
    induction m with
    | zero => rfl
    | succ m ih =>
      rw [Function.iterate_succ_apply', Function.iterate_succ_apply', ih,
        hps_lt _ (iterate_le h hj m)]
  have hlen2 : (parent ++ [cur + 1]).length = parent.length + 1 := by simp
  have hroots : CapAnn.numRoots (parent ++ [cur + 1]) = CapAnn.numRoots parent + 1 := by
    rw [CapAnn.numRoots, CapAnn.numRoots, hlen2, Finset.range_succ, Finset.filter_insert,
      if_pos (show CapAnn.pstep (parent ++ [cur + 1]) parent.length = parent.length by
        rw [hlen]; exact hps_new),
      Finset.card_insert_of_not_mem (fun hmem => absurd
        (Finset.mem_range.mp (Finset.mem_filter.mp hmem).1) (lt_irrefl _))]
    congr 1
    refine congrArg Finset.card (Finset.filter_congr ?_)
    intro x hx
    rw [Finset.mem_range] at hx
    simp [hps_lt x (by omega)]
  refine ⟨⟨by rw [hlen2, hlen], ?_, ?_, ?_, ?_⟩, ?_, ?_⟩
  · rw [hps_lt 0 (by omega)]
    exact h.2.1
  · intro x hx
    by_cases hxc : x ≤ cur
    · rw [hps_lt x hxc]
      exact le_trans (h.2.2.1 x hxc) (by omega)
    · have hxe : x = cur + 1 := by omega
      subst hxe
      rw [hps_new]
  · intro x hx1 hx
    by_cases hxc : x ≤ cur
    · rw [hps_lt x hxc]
      exact h.2.2.2.1 x hx1 hxc
    · have hxe : x = cur + 1 := by omega
      subst hxe
      rw [hps_new]
      omega
  · intro j hj
    by_cases hjc : j ≤ cur
    · obtain ⟨n, hfx, hn⟩ := h.2.2.2.2 j hjc
      refine ⟨n, ?_, ?_⟩
      · rw [hiter j hjc, hiter j hjc]
        exact hfx
      · rw [hroots, hlen2]
        omega
    · have hje : j = cur + 1 := by omega
      subst hje
      refine ⟨0, ?_, ?_⟩
      · simpa using hps_new
      · have hcf := Finset.card_filter_le (Finset.range (parent ++ [cur + 1]).length)
          (fun x => CapAnn.pstep (parent ++ [cur + 1]) x = x)
        rw [CapAnn.numRoots]
        simpa using hcf
  · intro j hj
    obtain ⟨n, hfind, hfx, hn⟩ := find_eq_iterate h hj
    have hroots1 := numRoots_pos h
    have hfx2 : (CapAnn.pstep (parent ++ [cur + 1]))^[n + 1] j
        = (CapAnn.pstep (parent ++ [cur + 1]))^[n] j := by
      rw [hiter j hj, hiter j hj]
      exact hfx
    exact ((findN_eq_of_fix (parent ++ [cur + 1]) (parent ++ [cur + 1]).length n j
      (by rw [hlen2]; omega) hfx2).trans (hiter j hj n)).trans hfind.symm
  · exact find_fix_self hps_new

theorem adjPix_symm {width p q : ℕ} (h : CapAnn.adjPix width p q) :
    CapAnn.adjPix width q p := by
  rcases h with ⟨h1, h2⟩ | ⟨h1, h2⟩
  · exact Or.inl ⟨h1.symm, h2.symm⟩
  · exact Or.inr ⟨h1.symm, h2.symm⟩

theorem adjPix_irrefl {width p : ℕ} : ¬ CapAnn.adjPix width p p := by
  rintro (⟨-, h⟩ | ⟨-, h⟩) <;> omega

theorem adjF_symm {width height : ℕ} {binary : ℕ → ℕ} {p q : ℕ}
    (h : CapAnn.adjF width height binary p q) : CapAnn.adjF width height binary q p :=
  ⟨h.2.1, h.1, h.2.2.2.1, h.2.2.1, adjPix_symm h.2.2.2.2⟩

theorem connB_symm {width height : ℕ} {binary : ℕ → ℕ} {k p q : ℕ}
    (h : CapAnn.ConnB width height binary k p q) : CapAnn.ConnB width height binary k q p :=
  Relation.ReflTransGen.symmetric
    (fun _ _ hab => ⟨adjF_symm hab.1, hab.2.2, hab.2.1⟩) h

theorem connB_mono {width height : ℕ} {binary : ℕ → ℕ} {k k2 p q : ℕ} (hk : k ≤ k2)
    (h : CapAnn.ConnB width height binary k p q) : CapAnn.ConnB width height binary k2 p q :=
  Relation.ReflTransGen.mono
    (fun _ _ hab => ⟨hab.1, lt_of_lt_of_le hab.2.1 hk, lt_of_lt_of_le hab.2.2 hk⟩) h

theorem adjPix_lt_iff {width b k : ℕ} (hw : 0 < width) (hbk : b < k) :
    CapAnn.adjPix width b k ↔
      (0 < k % width ∧ b = k - 1) ∨ (width ≤ k ∧ b = k - width) := by
  have ek : width * (k / width) + k % width = k := Nat.div_add_mod k width
  have eb : width * (b / width) + b % width = b := Nat.div_add_mod b width
  have hmk : k % width < width := Nat.mod_lt _ hw
  have hmb : b % width < width := Nat.mod_lt _ hw
  constructor
  · rintro (⟨hc, hr | hr⟩ | ⟨hr, hc | hc⟩)
    · exfalso
      have h2 : width * (b / width) = width * (k / width) + width := by rw [hr]; ring
      omega
    · right
      have h2 : width * (k / width) = width * (b / width) + width := by rw [hr]; ring
      omega
    · exfalso
      have h2 : width * (b / width) = width * (k / width) := by rw [hr]
      omega
    · left
      have h2 : width * (b / width) = width * (k / width) := by rw [hr]
      omega
  · rintro (⟨hpos, hb⟩ | ⟨hwk, hb⟩)
    · subst hb
      right
      have h1 : k - 1 = (k % width - 1) + width * (k / width) := by omega
      have hdiv : (k - 1) / width = k / width := by
        rw [h1, Nat.add_mul_div_left _ _ hw, Nat.div_eq_of_lt (by omega), Nat.zero_add]
      have hmod : (k - 1) % width = k % width - 1 := by
        rw [h1, Nat.add_mul_mod_self_left]
        exact Nat.mod_eq_of_lt (by omega)
      exact ⟨hdiv, Or.inr (by omega)⟩
    · subst hb
      left
      have h1 : k = (k - width) + width := by omega
      have hmod : (k - width) % width = k % width := by
        conv_rhs => rw [h1]
        rw [Nat.add_mod_right]
      have hdiv : k / width = (k - width) / width + 1 := by
        conv_lhs => rw [h1]
        rw [Nat.add_div_right _ hw]
      exact ⟨hmod, Or.inr hdiv⟩

theorem reachK_iff {width height : ℕ} {binary : ℕ → ℕ} {k z : ℕ} (hw : 0 < width)
    (hk : k < width * height) (hFk : binary k ≠ 0) :
    CapAnn.reachK width height binary k z ↔
      ((0 < k % width ∧ binary (k - 1) ≠ 0 ∧ CapAnn.ConnB width height binary k z (k - 1)) ∨
       (width ≤ k ∧ binary (k - width) ≠ 0 ∧
         CapAnn.ConnB width height binary k z (k - width))) := by
  constructor
  · rintro ⟨nb, hnb, hadj, hconn⟩
    obtain ⟨hnb2, -, hFnb, -, hadjp⟩ := hadj
    rcases (adjPix_lt_iff hw hnb).mp hadjp with ⟨hpos, hbe⟩ | ⟨hwk, hbe⟩
    · subst hbe
      exact Or.inl ⟨hpos, hFnb, hconn⟩
    · subst hbe
      exact Or.inr ⟨hwk, hFnb, hconn⟩
  · rintro (⟨hpos, hFn, hconn⟩ | ⟨hwk, hFn, hconn⟩)
    · have h0 : 0 < k := lt_of_lt_of_le hpos (Nat.mod_le k width)
      refine ⟨k - 1, by omega, ⟨by omega, hk, hFn, hFk, ?_⟩, hconn⟩
      exact (adjPix_lt_iff hw (by omega)).mpr (Or.inl ⟨hpos, rfl⟩)
    · refine ⟨k - width, by omega, ⟨by omega, hk, hFn, hFk, ?_⟩, hconn⟩
      exact (adjPix_lt_iff hw (by omega)).mpr (Or.inr ⟨hwk, rfl⟩)

theorem connB_succ_cases {width height : ℕ} {binary : ℕ → ℕ} {k p q : ℕ}
    (h : CapAnn.ConnB width height binary (k + 1) p q) :
    p = q ∨
    (p < k ∧ q < k ∧ (CapAnn.ConnB width height binary k p q ∨
      (CapAnn.reachK width height binary k p ∧ CapAnn.reachK width height binary k q))) ∨
    (p < k ∧ q = k ∧ CapAnn.reachK width height binary k p) ∨
    (p = k ∧ q < k ∧ CapAnn.reachK width height binary k q) ∨
    (p = k ∧ q = k) := by
  have reach_extend : ∀ {u v : ℕ}, u < k → v < k → CapAnn.adjF width height binary u v →
      CapAnn.reachK width height binary k u → CapAnn.reachK width height binary k v := by
    rintro u v hu hv hadj ⟨nb, h1, h2, h3⟩
    exact ⟨nb, h1, h2, Relation.ReflTransGen.trans
      (Relation.ReflTransGen.single ⟨adjF_symm hadj, hv, hu⟩) h3⟩
  simp only [CapAnn.ConnB] at h
  induction h with
  | refl => exact Or.inl rfl
  | @tail b c hab hbc ih =>
    obtain ⟨hadj, hbk1, hck1⟩ := hbc
    by_cases hbk : b = k
    · by_cases hck : c = k
      · subst hbk
        subst hck
        exact absurd hadj.2.2.2.2 adjPix_irrefl
      · have hck2 : c < k := by omega
        have hreachc : CapAnn.reachK width height binary k c := by
          subst hbk
          exact ⟨c, hck2, adjF_symm hadj, Relation.ReflTransGen.refl⟩
        rcases ih with hpb | ⟨hp, hb2, hcon⟩ | ⟨hp, hb2, hrp⟩ | ⟨hp, hb2, hrb⟩ | ⟨hp, hb2⟩
        · subst hpb
          exact Or.inr (Or.inr (Or.inr (Or.inl ⟨hbk, hck2, hreachc⟩)))
        · omega
        · exact Or.inr (Or.inl ⟨hp, hck2, Or.inr ⟨hrp, hreachc⟩⟩)
        · omega
        · exact Or.inr (Or.inr (Or.inr (Or.inl ⟨hp, hck2, hreachc⟩)))
    · have hbk2 : b < k := by omega
      by_cases hck : c = k
      · rw [hck] at hadj
        have hreach_of : ∀ z, CapAnn.ConnB width height binary k z b →
            CapAnn.reachK width height binary k z := fun z hz => ⟨b, hbk2, hadj, hz⟩
        rcases ih with hpb | ⟨hp, hb2, hcon⟩ | ⟨hp, hb2, hrp⟩ | ⟨hp, hb2, hrb⟩ | ⟨hp, hb2⟩
        · subst hpb
          exact Or.inr (Or.inr (Or.inl ⟨hbk2, hck, hreach_of p Relation.ReflTransGen.refl⟩))
        · rcases hcon with hconn | ⟨hrp, hrb⟩
          · exact Or.inr (Or.inr (Or.inl ⟨hp, hck, hreach_of p hconn⟩))
          · exact Or.inr (Or.inr (Or.inl ⟨hp, hck, hrp⟩))
        · omega
        · exact Or.inr (Or.inr (Or.inr (Or.inr ⟨hp, hck⟩)))
        · omega
      · have hck2 : c < k := by omega
        have hstep : CapAnn.ConnB width height binary k b c :=
          Relation.ReflTransGen.single ⟨hadj, hbk2, hck2⟩
        rcases ih with hpb | ⟨hp, hb2, hcon⟩ | ⟨hp, hb2, hrp⟩ | ⟨hp, hb2, hrb⟩ | ⟨hp, hb2⟩
        · subst hpb
          exact Or.inr (Or.inl ⟨hbk2, hck2, Or.inl hstep⟩)
        · rcases hcon with hconn | ⟨hrp, hrb⟩
          · exact Or.inr (Or.inl ⟨hp, hck2, Or.inl (hconn.trans hstep)⟩)
          · exact Or.inr (Or.inl ⟨hp, hck2, Or.inr ⟨hrp, reach_extend hbk2 hck2 hadj hrb⟩⟩)
        · omega
        · exact Or.inr (Or.inr (Or.inr (Or.inl ⟨hp, hck2, reach_extend hbk2 hck2 hadj hrb⟩)))
        · omega

theorem reach_connB_succ {width height : ℕ} {binary : ℕ → ℕ} {k z : ℕ}
    (hz : CapAnn.reachK width height binary k z) :
    CapAnn.ConnB width height binary (k + 1) z k := by
  obtain ⟨nb, hnb, hadj, hconn⟩ := hz
  exact Relation.ReflTransGen.tail (connB_mono (Nat.le_succ k) hconn)
    ⟨hadj, by omega, by omega⟩

theorem connB_succ_iff_lt {width height : ℕ} {binary : ℕ → ℕ} {k p q : ℕ}
    (hp : p < k) (hq : q < k) :
    CapAnn.ConnB width height binary (k + 1) p q ↔
      (CapAnn.ConnB width height binary k p q ∨
        (CapAnn.reachK width height binary k p ∧ CapAnn.reachK width height binary k q)) := by
  constructor
  · intro h
    rcases connB_succ_cases h with hpq | ⟨-, -, hd⟩ | ⟨-, hqk, -⟩ | ⟨hpk, -, -⟩ | ⟨hpk, -⟩
    · subst hpq
      exact Or.inl Relation.ReflTransGen.refl
    · exact hd
    · omega
    · omega
    · omega
  · rintro (hconn | ⟨hrp, hrq⟩)
    · exact connB_mono (Nat.le_succ k) hconn
    · exact Relation.ReflTransGen.trans (reach_connB_succ hrp)
        (connB_symm (reach_connB_succ hrq))

theorem connB_succ_iff_k {width height : ℕ} {binary : ℕ → ℕ} {k p : ℕ} (hp : p < k) :
    CapAnn.ConnB width height binary (k + 1) p k ↔
      CapAnn.reachK width height binary k p := by
  constructor
  · intro h
    rcases connB_succ_cases h with hpq | ⟨-, hqk, -⟩ | ⟨-, -, hrp⟩ | ⟨hpk, -, -⟩ | ⟨hpk, -⟩
    · omega
    · omega
    · exact hrp
    · omega
    · omega
  · exact reach_connB_succ

theorem connB_succ_bg {width height : ℕ} {binary : ℕ → ℕ} {k p q : ℕ}
    (hFk : binary k = 0) (hp : p < k) (hq : q < k) :
    CapAnn.ConnB width height binary (k + 1) p q ↔
      CapAnn.ConnB width height binary k p q := by
  constructor
  · intro h
    rcases connB_succ_cases h with hpq | ⟨-, -, hd⟩ | ⟨-, hqk, -⟩ | ⟨hpk, -, -⟩ | ⟨hpk, -⟩
    · subst hpq
      exact Relation.ReflTransGen.refl
    · rcases hd with hconn | ⟨⟨nb, -, hadj, -⟩, -⟩
      · exact hconn
      · exact absurd hFk hadj.2.2.2.1
    · omega
    · omega
    · omega
  · exact connB_mono (Nat.le_succ k)

theorem leftLabel_eq {width : ℕ} {s : CapAnn.CCState} {k : ℕ} :
    CapAnn.leftLabel width s k = if 0 < k % width then s.labels (k - 1) else 0 := by
  rw [CapAnn.leftLabel]
  by_cases h : 0 < k % width
  · rw [if_pos h, if_pos h]
    congr 1
    have ek : width * (k / width) + k % width = k := Nat.div_add_mod k width
    have emc : k / width * width = width * (k / width) := Nat.mul_comm _ _
    omega
  · rw [if_neg h, if_neg h]

theorem topLabel_eq {width : ℕ} {s : CapAnn.CCState} {k : ℕ} (hw : 0 < width) :
    CapAnn.topLabel width s k = if width ≤ k then s.labels (k - width) else 0 := by
  rw [CapAnn.topLabel]
  have hiff : 0 < k / width ↔ width ≤ k := by
    constructor
    · intro h1
      by_contra hc
      push_neg at hc
      rw [Nat.div_eq_of_lt hc] at h1
      exact lt_irrefl 0 h1
    · intro h1
      exact Nat.div_pos h1 hw
  by_cases h : width ≤ k
  · have h0 : 0 < k / width := hiff.mpr h
    rw [if_pos h0, if_pos h]
    congr 1
    have ek : width * (k / width) + k % width = k := Nat.div_add_mod k width
    have h3 : k / width - 1 + 1 = k / width := by omega
    have h2 : (k / width - 1 + 1) * width = (k / width - 1) * width + width := by ring
    rw [h3] at h2
    have emc : k / width * width = width * (k / width) := Nat.mul_comm _ _
    have hmk : k % width < width := Nat.mod_lt _ hw
    omega
  · rw [if_neg (fun hc => h (hiff.mp hc)), if_neg h]

theorem leftLabel_ne_iff {width : ℕ} {binary : ℕ → ℕ} {k : ℕ} {s : CapAnn.CCState}
    (hsupp : ∀ i, s.labels i ≠ 0 ↔ (i < k ∧ binary i ≠ 0)) :
    (CapAnn.leftLabel width s k ≠ 0 ↔ (0 < k % width ∧ binary (k - 1) ≠ 0)) ∧
    (CapAnn.leftLabel width s k ≠ 0 → CapAnn.leftLabel width s k = s.labels (k - 1)) := by
  rw [leftLabel_eq]
  by_cases h : 0 < k % width
  · rw [if_pos h]
    refine ⟨?_, fun _ => rfl⟩
    rw [hsupp (k - 1)]
    have h0 : 0 < k := lt_of_lt_of_le h (Nat.mod_le k width)
    constructor
    · rintro ⟨-, hFn⟩
      exact ⟨h, hFn⟩
    · rintro ⟨-, hFn⟩
      exact ⟨by omega, hFn⟩
  · rw [if_neg h]
    exact ⟨⟨fun hc => absurd rfl hc, fun hc => absurd hc.1 h⟩, fun hc => absurd rfl hc⟩

theorem topLabel_ne_iff {width : ℕ} {binary : ℕ → ℕ} {k : ℕ} {s : CapAnn.CCState}
    (hw : 0 < width)
    (hsupp : ∀ i, s.labels i ≠ 0 ↔ (i < k ∧ binary i ≠ 0)) :
    (CapAnn.topLabel width s k ≠ 0 ↔ (width ≤ k ∧ binary (k - width) ≠ 0)) ∧
    (CapAnn.topLabel width s k ≠ 0 → CapAnn.topLabel width s k = s.labels (k - width)) := by
  rw [topLabel_eq hw]
  by_cases h : width ≤ k
  · rw [if_pos h]
    refine ⟨?_, fun _ => rfl⟩
    rw [hsupp (k - width)]
    have h0 : 0 < k := lt_of_lt_of_le hw h
    constructor
    · rintro ⟨-, hFn⟩
      exact ⟨h, hFn⟩
    · rintro ⟨-, hFn⟩
      exact ⟨by omega, hFn⟩
  · rw [if_neg h]
    exact ⟨⟨fun hc => absurd rfl hc, fun hc => absurd hc.1 h⟩, fun hc => absurd rfl hc⟩

theorem merge_if_iff (a b l t : ℕ) :
    ((if a = t then l else a) = (if b = t then l else b)) ↔
      (a = b ∨ ((a = l ∨ a = t) ∧ (b = l ∨ b = t))) := by
  split_ifs <;> omega

theorem merge_if_k_iff (a l t : ℕ) :
    ((if a = t then l else a) = l) ↔ (a = l ∨ a = t) := by
  split_ifs <;> omega

theorem merge_if_k2_iff (b l t : ℕ) :
    (l = if b = t then l else b) ↔ (b = l ∨ b = t) := by
  split_ifs <;> omega

theorem scanInv_step {width height : ℕ} {binary : ℕ → ℕ} {k : ℕ} {s : CapAnn.CCState}
    (hw : 0 < width) (hk : k < width * height)
    (hinv : CapAnn.ScanInv width height binary k s) :
    CapAnn.ScanInv width height binary (k + 1) (CapAnn.ccStep width binary s k) := by
  obtain ⟨hUF, hsupp, hle, hiff⟩ := hinv
  by_cases hF : binary k = 0
  · have hstep : CapAnn.ccStep width binary s k = s := by
      simp [CapAnn.ccStep, hF]
    rw [hstep]
    refine ⟨hUF, ?_, ?_, ?_⟩
    · intro i
      rw [hsupp i]
      constructor
      · rintro ⟨h1, h2⟩
        exact ⟨by omega, h2⟩
      · rintro ⟨h1, h2⟩
        have h3 : i ≠ k := fun he => (he ▸ h2) hF
        exact ⟨by omega, h2⟩
    · intro i hi hFi
      have h3 : i ≠ k := fun he => (he ▸ hFi) hF
      exact hle i (by omega) hFi
    · intro p q hp hq hFp hFq
      have hp2 : p < k := by
        have h3 : p ≠ k := fun he => (he ▸ hFp) hF
        omega
      have hq2 : q < k := by
        have h3 : q ≠ k := fun he => (he ▸ hFq) hF
        omega
      rw [hiff p q hp2 hq2 hFp hFq]
      exact (connB_succ_bg hF hp2 hq2).symm
  · obtain ⟨hLiff, hLval⟩ := leftLabel_ne_iff hsupp
    obtain ⟨hTiff, hTval⟩ := topLabel_ne_iff hw hsupp
    have hreach : ∀ z, CapAnn.reachK width height binary k z ↔
        ((CapAnn.leftLabel width s k ≠ 0 ∧ CapAnn.ConnB width height binary k z (k - 1)) ∨
         (CapAnn.topLabel width s k ≠ 0 ∧
           CapAnn.ConnB width height binary k z (k - width))) := by
      intro z
      rw [reachK_iff hw hk hF]
      constructor
      · rintro (⟨h1, h2, h3⟩ | ⟨h1, h2, h3⟩)
        · exact Or.inl ⟨hLiff.mpr ⟨h1, h2⟩, h3⟩
        · exact Or.inr ⟨hTiff.mpr ⟨h1, h2⟩, h3⟩
      · rintro (⟨h1, h3⟩ | ⟨h1, h3⟩)
        · obtain ⟨ha, hb⟩ := hLiff.mp h1
          exact Or.inl ⟨ha, hb, h3⟩
        · obtain ⟨ha, hb⟩ := hTiff.mp h1
          exact Or.inr ⟨ha, hb, h3⟩
    have hstep : CapAnn.ccStep width binary s k =
        (if CapAnn.leftLabel width s k = 0 ∧ CapAnn.topLabel width s k = 0 then
          (⟨Function.update s.labels k (s.currentLabel + 1), s.currentLabel + 1,
            s.parent ++ [s.currentLabel + 1]⟩ : CapAnn.CCState)
         else if CapAnn.leftLabel width s k ≠ 0 ∧ CapAnn.topLabel width s k = 0 then
          ⟨Function.update s.labels k (CapAnn.leftLabel width s k), s.currentLabel, s.parent⟩
         else if CapAnn.leftLabel width s k = 0 ∧ CapAnn.topLabel width s k ≠ 0 then
          ⟨Function.update s.labels k (CapAnn.topLabel width s k), s.currentLabel, s.parent⟩
         else
          ⟨Function.update s.labels k
              (min (CapAnn.leftLabel width s k) (CapAnn.topLabel width s k)),
            s.currentLabel,
            CapAnn.union s.parent (CapAnn.leftLabel width s k)
              (CapAnn.topLabel width s k)⟩) := by
      unfold CapAnn.ccStep
      rw [if_neg hF]
    rw [hstep]
    by_cases hL : CapAnn.leftLabel width s k = 0 <;>
      by_cases hT : CapAnn.topLabel width s k = 0
    · -- fresh label
      have hc1 : CapAnn.leftLabel width s k = 0 ∧ CapAnn.topLabel width s k = 0 := ⟨hL, hT⟩
      rw [if_pos hc1]
      have hnoreach : ∀ z, ¬ CapAnn.reachK width height binary k z := by
        intro z hz
        rcases (hreach z).mp hz with ⟨h1, -⟩ | ⟨h1, -⟩
        · exact h1 hL
        · exact h1 hT
      obtain ⟨hUF2, hfind_pres, hfind_new⟩ := push_spec hUF
      refine ⟨hUF2, ?_, ?_, ?_⟩
      all_goals dsimp only
      · intro i
        by_cases hik : i = k
        · rw [hik, Function.update_same]
          exact ⟨fun _ => ⟨by omega, hF⟩, fun _ => by omega⟩
        · rw [Function.update_noteq hik, hsupp i]
          exact ⟨fun ⟨h1, h2⟩ => ⟨by omega, h2⟩, fun ⟨h1, h2⟩ => ⟨by omega, h2⟩⟩
      · intro i hi hFi
        by_cases hik : i = k
        · rw [hik, Function.update_same]
        · rw [Function.update_noteq hik]
          exact le_trans (hle i (by omega) hFi) (by omega)
      · intro p q hp hq hFp hFq
        by_cases hpk : p = k <;> by_cases hqk : q = k
        · rw [hpk, hqk]
          exact ⟨fun _ => Relation.ReflTransGen.refl, fun _ => rfl⟩
        · have hq2 : q < k := by omega
          rw [hpk, Function.update_same, Function.update_noteq hqk,
            hfind_new, hfind_pres _ (hle q hq2 hFq)]
          constructor
          · intro he
            have hlt := find_le hUF (hle q hq2 hFq)
            omega
          · intro hcon
            exact absurd ((connB_succ_iff_k hq2).mp (connB_symm hcon)) (hnoreach q)
        · have hp2 : p < k := by omega
          rw [hqk, Function.update_same, Function.update_noteq hpk,
            hfind_new, hfind_pres _ (hle p hp2 hFp)]
          constructor
          · intro he
            have hlt := find_le hUF (hle p hp2 hFp)
            omega
          · intro hcon
            exact absurd ((connB_succ_iff_k hp2).mp hcon) (hnoreach p)
        · have hp2 : p < k := by omega
          have hq2 : q < k := by omega
          rw [Function.update_noteq hpk, Function.update_noteq hqk,
            hfind_pres _ (hle p hp2 hFp), hfind_pres _ (hle q hq2 hFq),
            hiff p q hp2 hq2 hFp hFq, connB_succ_iff_lt hp2 hq2]
          constructor
          · exact Or.inl
          · rintro (h1 | ⟨h1, -⟩)
            · exact h1
            · exact absurd h1 (hnoreach p)
    · -- propagate top (left = 0, top ≠ 0)
      have h1 : ¬(CapAnn.leftLabel width s k = 0 ∧ CapAnn.topLabel width s k = 0) :=
        fun hc => hT hc.2
      have h2 : ¬(CapAnn.leftLabel width s k ≠ 0 ∧ CapAnn.topLabel width s k = 0) :=
        fun hc => hc.1 hL
      have hc3 : CapAnn.leftLabel width s k = 0 ∧ CapAnn.topLabel width s k ≠ 0 := ⟨hL, hT⟩
      rw [if_neg h1, if_neg h2, if_pos hc3]
      obtain ⟨hwk, hFt⟩ := hTiff.mp hT
      have hTv := hTval hT
      have hkw_lt : k - width < k := by omega
      have hreach2 : ∀ z, CapAnn.reachK width height binary k z ↔
          CapAnn.ConnB width height binary k z (k - width) := by
        intro z
        rw [hreach z]
        constructor
        · rintro (⟨hne, -⟩ | ⟨-, h3⟩)
          · exact absurd hL hne
          · exact h3
        · intro h3
          exact Or.inr ⟨hT, h3⟩
      have hTc : CapAnn.topLabel width s k ≤ s.currentLabel := by
        rw [hTv]
        exact hle _ hkw_lt hFt
      refine ⟨hUF, ?_, ?_, ?_⟩
      all_goals dsimp only
      · intro i
        by_cases hik : i = k
        · rw [hik, Function.update_same]
          exact ⟨fun _ => ⟨by omega, hF⟩, fun _ => hT⟩
        · rw [Function.update_noteq hik, hsupp i]
          exact ⟨fun ⟨ha, hb⟩ => ⟨by omega, hb⟩, fun ⟨ha, hb⟩ => ⟨by omega, hb⟩⟩
      · intro i hi hFi
        by_cases hik : i = k
        · rw [hik, Function.update_same]
          exact hTc
        · rw [Function.update_noteq hik]
          exact hle i (by omega) hFi
      · intro p q hp hq hFp hFq
        by_cases hpk : p = k <;> by_cases hqk : q = k
        · rw [hpk, hqk]
          exact ⟨fun _ => Relation.ReflTransGen.refl, fun _ => rfl⟩
        · have hq2 : q < k := by omega
          rw [hpk, Function.update_same, Function.update_noteq hqk, hTv,
            hiff (k - width) q hkw_lt hq2 hFt hFq]
          constructor
          · intro h3
            exact connB_symm (reach_connB_succ ((hreach2 q).mpr (connB_symm h3)))
          · intro h3
            exact connB_symm ((hreach2 q).mp ((connB_succ_iff_k hq2).mp (connB_symm h3)))
        · have hp2 : p < k := by omega
          rw [hqk, Function.update_noteq hpk, Function.update_same, hTv,
            hiff p (k - width) hp2 hkw_lt hFp hFt, connB_succ_iff_k hp2]
          exact (hreach2 p).symm
        · have hp2 : p < k := by omega
          have hq2 : q < k := by omega
          rw [Function.update_noteq hpk, Function.update_noteq hqk,
            hiff p q hp2 hq2 hFp hFq, connB_succ_iff_lt hp2 hq2]
          constructor
          · exact Or.inl
          · rintro (h3 | ⟨h3, h4⟩)
            · exact h3
            · exact Relation.ReflTransGen.trans ((hreach2 p).mp h3)
                (connB_symm ((hreach2 q).mp h4))
    · -- propagate left (left ≠ 0, top = 0)
      have h1 : ¬(CapAnn.leftLabel width s k = 0 ∧ CapAnn.topLabel width s k = 0) :=
        fun hc => hL hc.1
      have hc2 : CapAnn.leftLabel width s k ≠ 0 ∧ CapAnn.topLabel width s k = 0 := ⟨hL, hT⟩
      rw [if_neg h1, if_pos hc2]
      obtain ⟨hx, hFl⟩ := hLiff.mp hL
      have hLv := hLval hL
      have h0k : 0 < k := lt_of_lt_of_le hx (Nat.mod_le k width)
      have hk1_lt : k - 1 < k := by omega
      have hreach2 : ∀ z, CapAnn.reachK width height binary k z ↔
          CapAnn.ConnB width height binary k z (k - 1) := by
        intro z
        rw [hreach z]
        constructor
        · rintro (⟨-, h3⟩ | ⟨hne, -⟩)
          · exact h3
          · exact absurd hT hne
        · intro h3
          exact Or.inl ⟨hL, h3⟩
      have hLc : CapAnn.leftLabel width s k ≤ s.currentLabel := by
        rw [hLv]
        exact hle _ hk1_lt hFl
      refine ⟨hUF, ?_, ?_, ?_⟩
      all_goals dsimp only
      · intro i
        by_cases hik : i = k
        · rw [hik, Function.update_same]
          exact ⟨fun _ => ⟨by omega, hF⟩, fun _ => hL⟩
        · rw [Function.update_noteq hik, hsupp i]
          exact ⟨fun ⟨ha, hb⟩ => ⟨by omega, hb⟩, fun ⟨ha, hb⟩ => ⟨by omega, hb⟩⟩
      · intro i hi hFi
        by_cases hik : i = k
        · rw [hik, Function.update_same]
          exact hLc
        · rw [Function.update_noteq hik]
          exact hle i (by omega) hFi
      · intro p q hp hq hFp hFq
        by_cases hpk : p = k <;> by_cases hqk : q = k
        · rw [hpk, hqk]
          exact ⟨fun _ => Relation.ReflTransGen.refl, fun _ => rfl⟩
        · have hq2 : q < k := by omega
          rw [hpk, Function.update_same, Function.update_noteq hqk, hLv,
            hiff (k - 1) q hk1_lt hq2 hFl hFq]
          constructor
          · intro h3
            exact connB_symm (reach_connB_succ ((hreach2 q).mpr (connB_symm h3)))
          · intro h3
            exact connB_symm ((hreach2 q).mp ((connB_succ_iff_k hq2).mp (connB_symm h3)))
        · have hp2 : p < k := by omega
          rw [hqk, Function.update_noteq hpk, Function.update_same, hLv,
            hiff p (k - 1) hp2 hk1_lt hFp hFl, connB_succ_iff_k hp2]
          exact (hreach2 p).symm
        · have hp2 : p < k := by omega
          have hq2 : q < k := by omega
          rw [Function.update_noteq hpk, Function.update_noteq hqk,
            hiff p q hp2 hq2 hFp hFq, connB_succ_iff_lt hp2 hq2]
          constructor
          · exact Or.inl
          · rintro (h3 | ⟨h3, h4⟩)
            · exact h3
            · exact Relation.ReflTransGen.trans ((hreach2 p).mp h3)
                (connB_symm ((hreach2 q).mp h4))
    · -- merge (left ≠ 0, top ≠ 0)
      have h1 : ¬(CapAnn.leftLabel width s k = 0 ∧ CapAnn.topLabel width s k = 0) :=
        fun hc => hL hc.1
      have h2 : ¬(CapAnn.leftLabel width s k ≠ 0 ∧ CapAnn.topLabel width s k = 0) :=
        fun hc => hT hc.2
      have h3 : ¬(CapAnn.leftLabel width s k = 0 ∧ CapAnn.topLabel width s k ≠ 0) :=
        fun hc => hL hc.1
      rw [if_neg h1, if_neg h2, if_neg h3]
      obtain ⟨hx, hFl⟩ := hLiff.mp hL
      obtain ⟨hwk, hFt⟩ := hTiff.mp hT
      have hLv := hLval hL
      have hTv := hTval hT
      have h0k : 0 < k := lt_of_lt_of_le hx (Nat.mod_le k width)
      have hk1_lt : k - 1 < k := by omega
      have hkw_lt : k - width < k := by omega
      have hL1 : 1 ≤ CapAnn.leftLabel width s k := Nat.one_le_iff_ne_zero.mpr hL
      have hT1 : 1 ≤ CapAnn.topLabel width s k := Nat.one_le_iff_ne_zero.mpr hT
      have hLc : CapAnn.leftLabel width s k ≤ s.currentLabel := by
        rw [hLv]
        exact hle _ hk1_lt hFl
      have hTc : CapAnn.topLabel width s k ≤ s.currentLabel := by
        rw [hTv]
        exact hle _ hkw_lt hFt
      obtain ⟨hUF2, hfind2⟩ := union_spec hUF hL1 hLc hT1 hTc
      have hreach2 : ∀ z, CapAnn.reachK width height binary k z ↔
          (CapAnn.ConnB width height binary k z (k - 1) ∨
           CapAnn.ConnB width height binary k z (k - width)) := by
        intro z
        rw [hreach z]
        constructor
        · rintro (⟨-, h4⟩ | ⟨-, h4⟩)
          · exact Or.inl h4
          · exact Or.inr h4
        · rintro (h4 | h4)
          · exact Or.inl ⟨hL, h4⟩
          · exact Or.inr ⟨hT, h4⟩
      have hfl : ∀ z, z < k → binary z ≠ 0 →
          ((CapAnn.find s.parent (s.labels z) =
            CapAnn.find s.parent (CapAnn.leftLabel width s k)) ↔
            CapAnn.ConnB width height binary k z (k - 1)) := by
        intro z hz hFz
        rw [hLv]
        exact hiff z (k - 1) hz hk1_lt hFz hFl
      have hft : ∀ z, z < k → binary z ≠ 0 →
          ((CapAnn.find s.parent (s.labels z) =
            CapAnn.find s.parent (CapAnn.topLabel width s k)) ↔
            CapAnn.ConnB width height binary k z (k - width)) := by
        intro z hz hFz
        rw [hTv]
        exact hiff z (k - width) hz hkw_lt hFz hFt
      have hminc : min (CapAnn.leftLabel width s k) (CapAnn.topLabel width s k) ≤
          s.currentLabel := le_trans (min_le_left _ _) hLc
      have hfind_min : CapAnn.find (CapAnn.union s.parent (CapAnn.leftLabel width s k)
            (CapAnn.topLabel width s k))
            (min (CapAnn.leftLabel width s k) (CapAnn.topLabel width s k)) =
          CapAnn.find s.parent (CapAnn.leftLabel width s k) := by
        rcases min_choice (CapAnn.leftLabel width s k) (CapAnn.topLabel width s k) with hm | hm
        · rw [hm, hfind2 _ hLc]
          split_ifs <;> rfl
        · rw [hm, hfind2 _ hTc, if_pos rfl]
      refine ⟨hUF2, ?_, ?_, ?_⟩
      all_goals dsimp only
      · intro i
        by_cases hik : i = k
        · rw [hik, Function.update_same]
          exact ⟨fun _ => ⟨by omega, hF⟩,
            fun _ => Nat.one_le_iff_ne_zero.mp (le_min hL1 hT1)⟩
        · rw [Function.update_noteq hik, hsupp i]
          exact ⟨fun ⟨ha, hb⟩ => ⟨by omega, hb⟩, fun ⟨ha, hb⟩ => ⟨by omega, hb⟩⟩
      · intro i hi hFi
        by_cases hik : i = k
        · rw [hik, Function.update_same]
          exact hminc
        · rw [Function.update_noteq hik]
          exact hle i (by omega) hFi
      · intro p q hp hq hFp hFq
        by_cases hpk : p = k <;> by_cases hqk : q = k
        · rw [hpk, hqk]
          exact ⟨fun _ => Relation.ReflTransGen.refl, fun _ => rfl⟩
        · have hq2 : q < k := by omega
          have hsy : CapAnn.ConnB width height binary (k + 1) k q ↔
              CapAnn.ConnB width height binary (k + 1) q k := ⟨connB_symm, connB_symm⟩
          rw [hpk, Function.update_same, Function.update_noteq hqk, hfind_min,
            hfind2 _ (hle q hq2 hFq), merge_if_k2_iff, hsy, connB_succ_iff_k hq2]
          exact ((hfl q hq2 hFq).or (hft q hq2 hFq)).trans (hreach2 q).symm
        · have hp2 : p < k := by omega
          rw [hqk, Function.update_noteq hpk, Function.update_same, hfind_min,
            hfind2 _ (hle p hp2 hFp), merge_if_k_iff, connB_succ_iff_k hp2]
          exact ((hfl p hp2 hFp).or (hft p hp2 hFp)).trans (hreach2 p).symm
        · have hp2 : p < k := by omega
          have hq2 : q < k := by omega
          rw [Function.update_noteq hpk, Function.update_noteq hqk,
            hfind2 _ (hle p hp2 hFp), hfind2 _ (hle q hq2 hFq),
            merge_if_iff, connB_succ_iff_lt hp2 hq2]
          exact or_congr (hiff p q hp2 hq2 hFp hFq)
            (and_congr (((hfl p hp2 hFp).or (hft p hp2 hFp)).trans (hreach2 p).symm)
              (((hfl q hq2 hFq).or (hft q hq2 hFq)).trans (hreach2 q).symm))

theorem scanInv_init (width height : ℕ) (binary : ℕ → ℕ) :
    CapAnn.ScanInv width height binary 0 CapAnn.ccInit := by
  have hcur : CapAnn.ccInit.currentLabel = 0 := rfl
  refine ⟨⟨rfl, rfl, ?_, ?_, ?_⟩, ?_, ?_, ?_⟩
  · intro j hj
    have hj0 : j = 0 := by omega
    subst hj0
    decide
  · intro j hj1 hj2
    omega
  · intro j hj
    have hj0 : j = 0 := by omega
    subst hj0
    exact ⟨0, by decide, by decide⟩
  · intro i
    constructor
    · intro h
      exact absurd rfl h
    · rintro ⟨h1, -⟩
      exact absurd h1 (Nat.not_lt_zero i)
  · intro i hi
    exact absurd hi (Nat.not_lt_zero i)
  · intro p q hp
    exact absurd hp (Nat.not_lt_zero p)

theorem scanInv_fold {width height : ℕ} {binary : ℕ → ℕ} (hw : 0 < width) :
    ∀ n, n ≤ width * height →
      CapAnn.ScanInv width height binary n
        ((List.range n).foldl (CapAnn.ccStep width binary) CapAnn.ccInit) := by
  intro n
  induction n with
  | zero =>
    intro hn
    exact scanInv_init width height binary
  | succ n ih =>
    intro hn
    rw [List.range_succ, List.foldl_append]
    simp only [List.foldl_cons, List.foldl_nil]
    exact scanInv_step hw (by omega) (ih (by omega))

theorem connB_iff_reflTransGen {width height : ℕ} {binary : ℕ → ℕ} {p q : ℕ} :
    CapAnn.ConnB width height binary (width * height) p q ↔
      Relation.ReflTransGen (CapAnn.adjF width height binary) p q := by
  constructor
  · exact Relation.ReflTransGen.mono (fun a b hab => hab.1)
  · exact Relation.ReflTransGen.mono (fun a b hab => ⟨hab, hab.1, hab.2.1⟩)

/-- C1: on every binary mask (with positive width), the two-pass union-find
labeler assigns two in-range foreground pixels the same resolved label
exactly when they are joined by a chain of 4-adjacent in-range foreground
pixels, i.e. the resolved label map partitions the foreground into its
maximal 4-connected components. -/
theorem C1_connectedComponents_partition (binary : ℕ → ℕ) (width height : ℕ)
    (hw : 0 < width) (p q : ℕ) (hp : p < width * height) (hq : q < width * height)
    (hFp : binary p ≠ 0) (hFq : binary q ≠ 0) :
    ((CapAnn.connectedComponents binary width height).1 p =
      (CapAnn.connectedComponents binary width height).1 q ↔
      Relation.ReflTransGen (CapAnn.adjF width height binary) p q) := by
  have hinv : CapAnn.ScanInv width height binary (width * height)
      (CapAnn.ccFirstPass width height binary) := scanInv_fold hw (width * height) le_rfl
  obtain ⟨hUF, hsupp, hle, hiff⟩ := hinv
  have hlp : (CapAnn.ccFirstPass width height binary).labels p ≠ 0 := (hsupp p).mpr ⟨hp, hFp⟩
  have hlq : (CapAnn.ccFirstPass width height binary).labels q ≠ 0 := (hsupp q).mpr ⟨hq, hFq⟩
  have hcc : ∀ i, (CapAnn.connectedComponents binary width height).1 i =
      if (CapAnn.ccFirstPass width height binary).labels i > 0
      then CapAnn.find (CapAnn.ccFirstPass width height binary).parent
        ((CapAnn.ccFirstPass width height binary).labels i)
      else (CapAnn.ccFirstPass width height binary).labels i := fun i => rfl
  rw [hcc p, hcc q, if_pos (Nat.pos_of_ne_zero hlp), if_pos (Nat.pos_of_ne_zero hlq),
    hiff p q hp hq hFp hFq]
  exact connB_iff_reflTransGen

/-- C1 witness: on the 3×2 U-shaped mask, pixels 0 and 2 receive the same
resolved label iff they are 4-connected through the foreground. -/
theorem C1_witness :
    (CapAnn.connectedComponents CapAnn.maskU 3 2).1 0 =
      (CapAnn.connectedComponents CapAnn.maskU 3 2).1 2 ↔
      Relation.ReflTransGen (CapAnn.adjF 3 2 CapAnn.maskU) 0 2 :=
  C1_connectedComponents_partition CapAnn.maskU 3 2 (by decide) 0 2 (by decide) (by decide)
    (by decide) (by decide)

/-- C3 counterexample: on the 3×2 U-shaped mask the returned count is 2
(two provisional labels were allocated and then merged), while the
resolved label map contains exactly 1 distinct nonzero label, so the
count is not the number of distinct root labels present. -/
theorem C3_counterexample :
    (CapAnn.connectedComponents CapAnn.maskU 3 2).2 = 2 ∧
    CapAnn.distinctLabelCount (CapAnn.connectedComponents CapAnn.maskU 3 2).1 3 2 = 1 := by
  constructor
  · decide
  · decide

/-- C3 (amended): the returned count (the number of provisional labels
allocated in the first pass) is an upper bound on the number of distinct
nonzero resolved labels, but may strictly exceed it when classes merge. -/
theorem C3_count_upper_bound (binary : ℕ → ℕ) (width height : ℕ) :
    CapAnn.distinctLabelCount (CapAnn.connectedComponents binary width height).1
      width height ≤ (CapAnn.connectedComponents binary width height).2 := by
  by_cases hw : 0 < width
  · have hinv : CapAnn.ScanInv width height binary (width * height)
        (CapAnn.ccFirstPass width height binary) := scanInv_fold hw (width * height) le_rfl
    obtain ⟨hUF, hsupp, hle, hiff⟩ := hinv
    rw [CapAnn.distinctLabelCount]
    have hcountv : (CapAnn.connectedComponents binary width height).2 =
        (CapAnn.ccFirstPass width height binary).currentLabel := rfl
    have hsub : (((Finset.range (width * height)).image
          (CapAnn.connectedComponents binary width height).1) \ {0}) ⊆
        Finset.Icc 1 (CapAnn.ccFirstPass width height binary).currentLabel := by
      intro v hv
      rw [Finset.mem_sdiff, Finset.mem_image] at hv
      obtain ⟨⟨i, hi, hvi⟩, hv0⟩ := hv
      rw [Finset.mem_range] at hi
      have hvne : v ≠ 0 := Finset.not_mem_singleton.mp hv0
      have hcc : (CapAnn.connectedComponents binary width height).1 i =
          if (CapAnn.ccFirstPass width height binary).labels i > 0
          then CapAnn.find (CapAnn.ccFirstPass width height binary).parent
            ((CapAnn.ccFirstPass width height binary).labels i)
          else (CapAnn.ccFirstPass width height binary).labels i := rfl
      by_cases hl0 : (CapAnn.ccFirstPass width height binary).labels i = 0
      · rw [hcc, hl0] at hvi
        simp at hvi
        exact absurd hvi.symm hvne
      · obtain ⟨-, hFi⟩ := (hsupp i).mp hl0
        have hli1 : 1 ≤ (CapAnn.ccFirstPass width height binary).labels i :=
          Nat.one_le_iff_ne_zero.mpr hl0
        have hlic := hle i hi hFi
        rw [hcc, if_pos (Nat.pos_of_ne_zero hl0)] at hvi
        rw [Finset.mem_Icc, ← hvi]
        exact ⟨find_one_le hUF hli1 hlic, find_le hUF hlic⟩
    have hcard := Finset.card_le_card hsub
    rw [Nat.card_Icc] at hcard
    omega
  · have hw0 : width = 0 := by omega
    subst hw0
    rw [CapAnn.distinctLabelCount]
    simp
